import Mathlib

/-! # ingressutil: rule store, route table and matcher

A shallow embedding of `route_map.go`, `ingress_router.go` and `ingressutil.go`.

Conventions of the embedding:

* A Go `string` is a byte sequence. It is embedded as a Lean `String` whose
  characters stand for the bytes, so `len s` is `s.length`, concatenation is
  `++`, and `strings.HasPrefix` is a prefix test on the character lists.
* A Go `map[string]V` that is only read by key and updated by key
  (`routeMap.hostMap`) is a function from keys to values, an absent key giving
  the zero value (the nil slice). The rule store `ingressMap`, which is also
  ranged over and deleted from, is an association list.
* `sync.Mutex` sections are atomic steps; the buffered `reloadChannel` is the
  number of signals it holds, and a send on a full channel parks the sender.
-/

namespace ingressutil

/-! ## Kubernetes API objects (the fields the package reads) -/

/-- Discriminator of `intstr.IntOrString`. -/
inductive IntstrType where
  | Int
  | String
  deriving DecidableEq, Repr

/-- The `intstr.IntOrString` value used for `ServicePort`; `Kind` is the Go field
`Type`. -/
structure IntOrString where
  Kind : IntstrType
  IntVal : Int
  StrVal : String
  deriving DecidableEq, Repr

/-- The method `IntOrString.String`: the string itself for a named port, the decimal
rendering of the number otherwise. -/
def IntOrString.String (p : IntOrString) : String :=
  match p.Kind with
  | IntstrType.String => p.StrVal
  | IntstrType.Int => toString p.IntVal

/-- The constructor `intstr.FromInt`. -/
def FromInt (val : Int) : IntOrString :=
  { Kind := IntstrType.Int, IntVal := val, StrVal := "" }

structure IngressBackend where
  ServiceName : String
  ServicePort : IntOrString
  deriving DecidableEq, Repr

structure HTTPIngressPath where
  Path : String
  Backend : IngressBackend
  deriving DecidableEq, Repr

structure HTTPIngressRuleValue where
  Paths : List HTTPIngressPath
  deriving DecidableEq, Repr

/-- An `IngressRule`: a host and an optional HTTP section (`HTTP == nil` is `none`). -/
structure IngressRule where
  Host : String
  HTTP : Option HTTPIngressRuleValue
  deriving DecidableEq, Repr

structure IngressSpec where
  Rules : List IngressRule
  deriving DecidableEq, Repr

/-- A `v1beta1.Ingress`: the identity fields of its `ObjectMeta` and its spec. -/
structure Ingress where
  Namespace : String
  Name : String
  Spec : IngressSpec
  deriving DecidableEq, Repr

/-! ## `areIngressesTheSame` (ingress_router.go) -/

/-- The inner loop of `areIngressesTheSame` over the positions of two path lists of
equal length: `false` at the first position where the path string, the service name or
the service port differ. -/
def pathsTheSame : List HTTPIngressPath → List HTTPIngressPath → Bool
  | path1 :: rest1, path2 :: rest2 =>
    if path1.Path ≠ path2.Path ∨ path1.Backend.ServiceName ≠ path2.Backend.ServiceName
        ∨ path1.Backend.ServicePort ≠ path2.Backend.ServicePort then false
    else pathsTheSame rest1 rest2
  | _, _ => true

/-- The outer loop of `areIngressesTheSame` over the positions of two rule lists of
equal length. -/
def rulesTheSame : List IngressRule → List IngressRule → Bool
  | rule1 :: rest1, rule2 :: rest2 =>
    match rule1.HTTP, rule2.HTTP with
    | none, none => rulesTheSame rest1 rest2 -- Skip non http rules
    | none, some _ => false
    | some _, none => false
    | some http1, some http2 =>
      if rule1.Host ≠ rule2.Host ∨ http1.Paths.length ≠ http2.Paths.length then false
      else if pathsTheSame http1.Paths http2.Paths = false then false
      else rulesTheSame rest1 rest2
  | _, _ => true

def areIngressesTheSame (ig1 ig2 : Ingress) : Bool :=
  if ig1.Spec.Rules.length ≠ ig2.Spec.Rules.length then false
  else rulesTheSame ig1.Spec.Rules ig2.Spec.Rules

/-! ## Go library functions used by the package -/

/-- Go's `strings.HasPrefix s pre`: `len(s) >= len(pre) && s[:len(pre)] == pre`. -/
def HasPrefix (s pre : String) : Bool :=
  decide (s.length ≥ pre.length) && (s.data.take pre.length == pre.data)

/-- Go's `strings.IndexByte`: the index of the first occurrence of `c`, or `-1`. -/
def IndexByte (s : String) (c : Char) : Int :=
  if c ∈ s.data then (s.data.indexOf c : Nat) else -1

/-- The comparator handed to `sort.Slice` in `routeMap.sort`:
`len(paths[i].path.Path) > len(paths[j].path.Path)`. -/
def pathLess (a b : HTTPIngressPath) : Prop := a.Path.length > b.Path.length

instance : DecidableRel pathLess := fun a b => inferInstanceAs (Decidable (a.Path.length > b.Path.length))

/-! ## route_map.go -/

structure routeMapEntry where
  ingress : Ingress
  path : HTTPIngressPath
  deriving DecidableEq, Repr

/-- The `routeMap`: `hostMap` gives the bucket of a hostname, `[]` for an absent key. -/
structure routeMap where
  hostMap : String → List routeMapEntry

def newRouteMap : routeMap :=
  { hostMap := fun _ => [] }

/-- The statement `rm.hostMap[host] = append(rm.hostMap[host], entry)`. -/
def routeMap.appendEntry (rm : routeMap) (host : String) (entry : routeMapEntry) : routeMap :=
  { hostMap := fun h => if h = host then rm.hostMap h ++ [entry] else rm.hostMap h }

/-- The method `routeMap.addIngress`: for every rule with an HTTP section, for every path
of it, append an entry to the bucket of the rule's host. -/
def routeMap.addIngress (rm : routeMap) (ingress : Ingress) : routeMap :=
  ingress.Spec.Rules.foldl
    (fun rm rule =>
      match rule.HTTP with
      | none => rm
      | some http =>
        http.Paths.foldl (fun rm path => rm.appendEntry rule.Host ⟨ingress, path⟩) rm)
    rm

/-- What `sort.Slice` guarantees for the comparator of `routeMap.sort`: the result is a
reordering of the slice in which no later element is less than an earlier one.
`sort.Slice` is not stable, so nothing more is known about ties. -/
def SortSliceSpec (sortSlice : List routeMapEntry → List routeMapEntry) : Prop :=
  ∀ l, (sortSlice l).Perm l ∧ (sortSlice l).Pairwise (fun a b => ¬ pathLess b.path a.path)

/-- The insertion sort that `sort.Slice` runs on slices of fewer than 12 elements; it is
stable. -/
def sortSlice (l : List routeMapEntry) : List routeMapEntry :=
  l.insertionSort (fun a b => ¬ pathLess b.path a.path)

/-- The method `routeMap.sort`: every bucket is sorted with `sort.Slice`, which is the
argument `sortSlice`. -/
def routeMap.sort (sortSlice : List routeMapEntry → List routeMapEntry) (rm : routeMap) :
    routeMap :=
  { hostMap := fun h => sortSlice (rm.hostMap h) }

/-- The loop of `routeMap.match`: the first entry of the bucket whose path is a prefix of
the request path. -/
def matchEntry : List routeMapEntry → String → Option routeMapEntry
  | [], _ => none
  | entry :: rest, path =>
    if HasPrefix path entry.path.Path then some entry else matchEntry rest path

/-- The backend address `match` returns for an entry. -/
def entryAddr (entry : routeMapEntry) : String :=
  entry.path.Backend.ServiceName ++ "." ++ entry.ingress.Namespace ++ ".svc:" ++
    entry.path.Backend.ServicePort.String

/-- The method `routeMap.match`. -/
def routeMap.match_ (rm : routeMap) (host path : String) : String × String × String × Bool :=
  match matchEntry (rm.hostMap host) path with
  | some entry => (entry.ingress.Namespace, entry.ingress.Name, entryAddr entry, true)
  | none => ("", "", "", false)

/-! ## ingress_router.go, ingressutil.go -/

/-- The `ingressRouter`: the rule store, the number of signals buffered in
`reloadChannel`, and the published route table (`none` before the first `Store`). -/
structure ingressRouter where
  ingressMap : List (String × Ingress)
  reloadChannel : Nat
  routemap : Option routeMap

/-- The capacity given to `reloadChannel` in `NewIngressRouter`. -/
def reloadChannelCap : Nat := 1000

def NewIngressRouter : ingressRouter :=
  { ingressMap := [], reloadChannel := 0, routemap := none }

/-- The map read `m[k]`. -/
def mapGet (m : List (String × Ingress)) (k : String) : Option Ingress :=
  m.lookup k

/-- The map write `m[k] = v`. -/
def mapSet (m : List (String × Ingress)) (k : String) (v : Ingress) : List (String × Ingress) :=
  m.filter (fun e => e.1 ≠ k) ++ [(k, v)]

/-- The built-in `delete(m, k)`. -/
def mapDelete (m : List (String × Ingress)) (k : String) : List (String × Ingress) :=
  m.filter (fun e => e.1 ≠ k)

/-- How a call on the router ends: it returns, or it is parked at the send
`ir.reloadChannel <- struct{}{}` because the channel is full. Both carry the router
state the call has produced so far. -/
inductive Outcome where
  | done (s : ingressRouter)
  | blocked (s : ingressRouter)

def Outcome.state : Outcome → ingressRouter
  | Outcome.done s => s
  | Outcome.blocked s => s

/-- The send `ir.reloadChannel <- struct{}{}` on the buffered channel. -/
def ingressRouter.signal (ir : ingressRouter) : Outcome :=
  if ir.reloadChannel < reloadChannelCap then
    Outcome.done { ir with reloadChannel := ir.reloadChannel + 1 }
  else Outcome.blocked ir

/-- The store key `ingress.Namespace + "/" + ingress.Name`. -/
def ingressKey (ingress : Ingress) : String :=
  ingress.Namespace ++ "/" ++ ingress.Name

def ingressRouter.addIngressToMap (ir : ingressRouter) (ingress : Ingress) : Outcome :=
  ({ ir with ingressMap := mapSet ir.ingressMap (ingressKey ingress) ingress }).signal

def ingressRouter.removeIngressFromMap (ir : ingressRouter) (ingress : Ingress) : Outcome :=
  ({ ir with ingressMap := mapDelete ir.ingressMap (ingressKey ingress) }).signal

/-- The invariant of the rule store: it is a Go map (no key occurs twice) and every
rule is stored under its own key, as the two writers `addIngressToMap` and
`removeIngressFromMap` leave it. -/
def ingressRouter.WF (ir : ingressRouter) : Prop :=
  (ir.ingressMap.map Prod.fst).Nodup ∧ ∀ e ∈ ir.ingressMap, e.1 = ingressKey e.2

/-- Whether a call returned. -/
def Outcome.isDone : Outcome → Bool
  | Outcome.done _ => true
  | Outcome.blocked _ => false

/-- An `interface{}` argument of an event handler: an `*v1beta1.Ingress`, or an object
of another type. -/
inductive Obj where
  | ingress (ig : Ingress)
  | other
  deriving DecidableEq, Repr

def ingressRouter.addIngress (ir : ingressRouter) (obj : Obj) : Outcome :=
  match obj with
  | Obj.other => Outcome.done ir
  | Obj.ingress ingress => ir.addIngressToMap ingress

def ingressRouter.updateIngress (ir : ingressRouter) (oldObj newObj : Obj) : Outcome :=
  match oldObj with
  | Obj.other => Outcome.done ir
  | Obj.ingress oldIngress =>
    match newObj with
    | Obj.other => Outcome.done ir
    | Obj.ingress newIngress =>
      if areIngressesTheSame oldIngress newIngress then Outcome.done ir
      else ir.addIngressToMap newIngress

def ingressRouter.removeIngress (ir : ingressRouter) (obj : Obj) : Outcome :=
  match obj with
  | Obj.other => Outcome.done ir
  | Obj.ingress ingress => ir.removeIngressFromMap ingress

/-- The table `updateRouteMap` builds when its `range ir.ingressMap` visits the rules in
the order `order`: `addIngress` for each, then `sort`. -/
def buildRouteMap (sortSlice : List routeMapEntry → List routeMapEntry) (order : List Ingress) :
    routeMap :=
  (order.foldl routeMap.addIngress newRouteMap).sort sortSlice

/-- The orders in which `range ir.ingressMap` may visit the rule store: Go leaves the
iteration order of a map unspecified, each entry is visited once. -/
def ingressRouter.rangeOrder (ir : ingressRouter) (order : List Ingress) : Prop :=
  order.Perm (ir.ingressMap.map Prod.snd)

instance (ir : ingressRouter) (order : List Ingress) : Decidable (ir.rangeOrder order) :=
  inferInstanceAs (Decidable (order.Perm (ir.ingressMap.map Prod.snd)))

/-- The method `updateRouteMap`, its `range` visiting the rules in the order `order`. -/
def ingressRouter.updateRouteMap (sortSlice : List routeMapEntry → List routeMapEntry)
    (order : List Ingress) (ir : ingressRouter) : ingressRouter :=
  { ir with routemap := some (buildRouteMap sortSlice order) }

def ingressRouter.getRouteMap (ir : ingressRouter) : Option routeMap :=
  ir.routemap

/-- The fields of an `http.Request` that are read: `r.Header.Get("Host")`, `r.Host` and
`r.URL.Path`. -/
structure Request where
  HeaderHost : String
  Host : String
  URLPath : String
  deriving DecidableEq, Repr

def GetHostname (r : Request) : String :=
  let hostname := if r.HeaderHost = "" then r.Host else r.HeaderHost
  let idx := IndexByte hostname ':'
  if idx ≥ 0 then ⟨hostname.data.take idx.toNat⟩ else hostname

def ingressRouter.MatchRequest (ir : ingressRouter) (r : Request) :
    String × String × String × Bool :=
  let hostname := GetHostname r
  match ir.getRouteMap with
  | none => ("", "", "", false)
  | some routeMap => routeMap.match_ hostname r.URLPath

/-! ## The objects of ingress_router_test.go -/

def ingress1 : Ingress :=
  { Namespace := "ns1", Name := "name1",
    Spec := { Rules := [
      { Host := "foo.com", HTTP := some { Paths := [
          { Path := "/", Backend := { ServiceName := "svc11", ServicePort := FromInt 80 } }] } },
      { Host := "bar.com", HTTP := some { Paths := [
          { Path := "/subpath", Backend := { ServiceName := "svc12", ServicePort := FromInt 80 } }] } }] } }

def ingress2 : Ingress :=
  { Namespace := "ns2", Name := "name2",
    Spec := { Rules := [
      { Host := "bar.com", HTTP := some { Paths := [
          { Path := "/", Backend := { ServiceName := "svc2", ServicePort := FromInt 80 } }] } }] } }

def ingress3 : Ingress :=
  { Namespace := "", Name := "",
    Spec := { Rules := [
      { Host := "foo.com", HTTP := some { Paths := [
          { Path := "/", Backend := { ServiceName := "svc1", ServicePort := FromInt 80 } }] } }] } }

/-- A rule declaring the prefixes `/` and `/sub` on one host. -/
def ingressSub : Ingress :=
  { Namespace := "ns", Name := "web",
    Spec := { Rules := [
      { Host := "foo.com", HTTP := some { Paths := [
          { Path := "/", Backend := { ServiceName := "root", ServicePort := FromInt 80 } },
          { Path := "/sub", Backend := { ServiceName := "sub", ServicePort := FromInt 8080 } }] } }] } }

/-- A rule whose only rule entry has no HTTP section, for the host `a.com`. -/
def ingressPlainA : Ingress :=
  { Namespace := "ns", Name := "plain", Spec := { Rules := [{ Host := "a.com", HTTP := none }] } }

/-- The same rule for the host `b.com`. -/
def ingressPlainB : Ingress :=
  { Namespace := "ns", Name := "plain", Spec := { Rules := [{ Host := "b.com", HTTP := none }] } }

/-- The router of the test "It matches routes successfully" before its rebuild:
`addIngress` of `ingress1`, `ingress2` and `ingress3` on a new router. -/
def testRouter : ingressRouter :=
  (((NewIngressRouter.addIngress (Obj.ingress ingress1)).state.addIngress
    (Obj.ingress ingress2)).state.addIngress (Obj.ingress ingress3)).state

/-- The request `GET https://foo.com/path1` of the tests. -/
def requestFooPath1 : Request :=
  { HeaderHost := "", Host := "foo.com", URLPath := "/path1" }

/-- The rule `ingress1` after an edit: the service of its first path is renamed. -/
def ingress1Changed : Ingress :=
  { Namespace := "ns1", Name := "name1",
    Spec := { Rules := [
      { Host := "foo.com", HTTP := some { Paths := [
          { Path := "/", Backend := { ServiceName := "svc11b", ServicePort := FromInt 80 } }] } },
      { Host := "bar.com", HTTP := some { Paths := [
          { Path := "/subpath", Backend := { ServiceName := "svc12", ServicePort := FromInt 80 } }] } }] } }

/-- The router of the test "It can delete an ingress sucessfully" after its first
`addIngress`: the store holds `ingress1` only. -/
def routerWith1 : ingressRouter :=
  (NewIngressRouter.addIngress (Obj.ingress ingress1)).state

/-- A router whose store holds `ingress1` and `ingress3`, which both declare `foo.com`
with the prefix `/`. -/
def routerWith13 : ingressRouter :=
  (routerWith1.addIngress (Obj.ingress ingress3)).state

/-- A router holding `ingress1` whose reload channel is full: 1000 signals were sent and
none has been received. -/
def fullRouter : ingressRouter :=
  { ingressMap := [(ingressKey ingress1, ingress1)], reloadChannel := 1000, routemap := none }

/-- The event handler `addIngress` called `n` times in a row with the same rule, no
receiver running on the reload channel. -/
def addRepeatedly (ingress : Ingress) : Nat → ingressRouter → ingressRouter
  | 0, ir => ir
  | n + 1, ir => addRepeatedly ingress n (ir.addIngress (Obj.ingress ingress)).state

/-- A rule whose namespace contains the separator of the store key. -/
def ingressSlashA : Ingress :=
  { Namespace := "a/b", Name := "c", Spec := { Rules := [] } }

/-- A rule with another namespace and another name, and the same store key `a/b/c`. -/
def ingressSlashB : Ingress :=
  { Namespace := "a", Name := "b/c", Spec := { Rules := [] } }

/-- A router whose store holds `ingressSlashA` only. -/
def routerWithSlashA : ingressRouter :=
  (NewIngressRouter.addIngress (Obj.ingress ingressSlashA)).state

/-- A router whose store holds `ingressSlashB` only. -/
def routerWithSlashB : ingressRouter :=
  (NewIngressRouter.addIngress (Obj.ingress ingressSlashB)).state

/-- The router states reachable from `NewIngressRouter` by the three event handlers and
by `updateRouteMap`, whose `range` visits the store in any of its orders. A handler that
is parked at its send has already produced its state, which a rebuild may observe. -/
inductive Reachable (sortSlice : List routeMapEntry → List routeMapEntry) :
    ingressRouter → Prop where
  | init : Reachable sortSlice NewIngressRouter
  | add (ir : ingressRouter) (obj : Obj) (before : Reachable sortSlice ir) :
      Reachable sortSlice (ir.addIngress obj).state
  | update (ir : ingressRouter) (oldObj newObj : Obj) (before : Reachable sortSlice ir) :
      Reachable sortSlice (ir.updateIngress oldObj newObj).state
  | remove (ir : ingressRouter) (obj : Obj) (before : Reachable sortSlice ir) :
      Reachable sortSlice (ir.removeIngress obj).state
  | rebuild (ir : ingressRouter) (order : List Ingress) (before : Reachable sortSlice ir)
      (visits : ir.rangeOrder order) :
      Reachable sortSlice (ir.updateRouteMap sortSlice order)

/-! ## Declared routes -/

/-- The rule `ingress` declares `path` under the hostname `h`: one of its rules has host
`h` and an HTTP section listing `path`. -/
def Declares (ingress : Ingress) (h : String) (path : HTTPIngressPath) : Prop :=
  ∃ rule ∈ ingress.Spec.Rules, rule.Host = h ∧ ∃ http, rule.HTTP = some http ∧ path ∈ http.Paths

/-- The entries one rule of `ingress` contributes to the bucket of `h`. -/
def ruleEntries (h : String) (ingress : Ingress) (rule : IngressRule) : List routeMapEntry :=
  match rule.HTTP with
  | none => []
  | some http => if h = rule.Host then http.Paths.map (fun path => ⟨ingress, path⟩) else []

/-- The entries `ingress` contributes to the bucket of `h`, in order. -/
def ingressEntries (h : String) (ingress : Ingress) : List routeMapEntry :=
  ingress.Spec.Rules.flatMap (ruleEntries h ingress)

/-- The bucket of `h` before sorting, when the rules are visited in the order `order`. -/
def declaredEntries (h : String) (order : List Ingress) : List routeMapEntry :=
  order.flatMap (ingressEntries h)

/-- The routes of a snapshot are unambiguous: two declarations of the same path string
under the same hostname are the same path of the same rule. -/
def Unambiguous (order : List Ingress) : Prop :=
  ∀ h, ∀ i1 ∈ order, ∀ i2 ∈ order, ∀ p1 p2, Declares i1 h p1 → Declares i2 h p2 →
    p1.Path = p2.Path → i1 = i2 ∧ p1 = p2

/-- A further property of `sort.Slice`: it reads the slice only through `less` and moves
its elements by swaps, so a slice whose elements are replaced by elements with the same
path lengths is rearranged in the same way. -/
def SortSliceByLess (sortSlice : List routeMapEntry → List routeMapEntry) : Prop :=
  ∀ (f : routeMapEntry → routeMapEntry) (l : List routeMapEntry),
    (∀ x, (f x).path.Path.length = x.path.Path.length) →
      sortSlice (l.map f) = (sortSlice l).map f

/-- The visiting order of the snapshot in which the rule `a` is replaced by `b`. -/
def replaceIngress (a b : Ingress) (order : List Ingress) : List Ingress :=
  order.map (fun x => if x = a then b else x)

/-- The entry of a table built with `b` in place of `a` that corresponds to `e`. -/
def replaceEntry (a b : Ingress) (e : routeMapEntry) : routeMapEntry :=
  if e.ingress = a then ⟨b, e.path⟩ else e

/-- Rule-body equality as the specification words it: the same ordered host list, and
for each host the same ordered path list (path string, service name, service port). -/
def sameBodySpec (a b : Ingress) : Prop :=
  a.Spec.Rules.map (fun r => r.Host) = b.Spec.Rules.map (fun r => r.Host) ∧
  a.Spec.Rules.map (fun r => r.HTTP) = b.Spec.Rules.map (fun r => r.HTTP)

/-- What `areIngressesTheSame` compares at one position: two rules without an HTTP
section are skipped; otherwise both have one, with the same host and the same paths. -/
def ruleSame (r1 r2 : IngressRule) : Prop :=
  (r1.HTTP = none ∧ r2.HTTP = none) ∨
  (∃ h1 h2, r1.HTTP = some h1 ∧ r2.HTTP = some h2 ∧ r1.Host = r2.Host ∧ h1.Paths = h2.Paths)

/-! ### Lemmas on `areIngressesTheSame` -/

theorem pathsTheSame_iff (l1 l2 : List HTTPIngressPath) (hlen : l1.length = l2.length) :
    pathsTheSame l1 l2 = true ↔ l1 = l2 := by
  induction l1 generalizing l2 with
  | nil =>
    cases l2 with
    | nil => simp [pathsTheSame]
    | cons b t => simp at hlen
  | cons a t ih =>
    cases l2 with
    | nil => simp at hlen
    | cons b t2 =>
      have hl : t.length = t2.length := by simpa using hlen
      obtain ⟨pa, ⟨sa, qa⟩⟩ := a
      obtain ⟨pb, ⟨sb, qb⟩⟩ := b
      by_cases h : pa ≠ pb ∨ sa ≠ sb ∨ qa ≠ qb
      · simp only [pathsTheSame, h, if_true]
        constructor
        · intro hf; cases hf
        · intro he
          injection he with h1 h2
          injection h1 with h3 h4
          injection h4 with h5 h6
          rcases h with h | h | h
          · exact absurd h3 h
          · exact absurd h5 h
          · exact absurd h6 h
      · simp only [pathsTheSame, h, if_false]
        rw [ih t2 hl]
        simp only [not_or, not_not] at h
        obtain ⟨h1, h2, h3⟩ := h
        subst h1 h2 h3
        simp

theorem rulesTheSame_iff (l1 l2 : List IngressRule) (hlen : l1.length = l2.length) :
    rulesTheSame l1 l2 = true ↔ List.Forall₂ ruleSame l1 l2 := by
  induction l1 generalizing l2 with
  | nil =>
    cases l2 with
    | nil => simp [rulesTheSame]
    | cons b t => simp at hlen
  | cons a t ih =>
    cases l2 with
    | nil => simp at hlen
    | cons b t2 =>
      have hl : t.length = t2.length := by simpa using hlen
      obtain ⟨ha, pa⟩ := a
      obtain ⟨hb, pb⟩ := b
      rw [List.forall₂_cons]
      cases pa with
      | none =>
        cases pb with
        | none => simp [rulesTheSame, ih t2 hl, ruleSame]
        | some y => simp [rulesTheSame, ruleSame]
      | some x =>
        cases pb with
        | none => simp [rulesTheSame, ruleSame]
        | some y =>
          by_cases hc : ha ≠ hb ∨ x.Paths.length ≠ y.Paths.length
          · have : ¬ (ha = hb ∧ x.Paths = y.Paths) := by
              rintro ⟨h1, h2⟩
              rcases hc with h | h
              · exact h h1
              · exact h (by rw [h2])
            simp [rulesTheSame, hc, ruleSame, this]
          · simp only [not_or, not_not] at hc
            obtain ⟨h1, h2⟩ := hc
            by_cases hp : pathsTheSame x.Paths y.Paths = true
            · have hp2 := (pathsTheSame_iff _ _ h2).1 hp
              have hpp := hp
              rw [hp2] at hpp
              subst h1
              simp [rulesTheSame, hpp, ruleSame, hp2, ih t2 hl]
            · have hp2 : ¬ x.Paths = y.Paths := fun h => hp ((pathsTheSame_iff _ _ h2).2 h)
              simp [rulesTheSame, h1, h2, hp, ruleSame, hp2]

theorem areIngressesTheSame_iff (a b : Ingress) :
    areIngressesTheSame a b = true ↔ List.Forall₂ ruleSame a.Spec.Rules b.Spec.Rules := by
  unfold areIngressesTheSame
  by_cases hlen : a.Spec.Rules.length = b.Spec.Rules.length
  · simp only [ne_eq, hlen, not_true_eq_false, if_false]
    exact rulesTheSame_iff _ _ hlen
  · simp only [ne_eq, hlen, not_false_eq_true, if_true]
    constructor
    · intro h; cases h
    · intro h; exact absurd h.length_eq hlen

theorem ruleSame_refl (r : IngressRule) : ruleSame r r := by
  cases h : r.HTTP with
  | none => exact Or.inl ⟨h, h⟩
  | some x => exact Or.inr ⟨x, x, h, h, rfl, rfl⟩

theorem forall₂_ruleSame_refl (l : List IngressRule) : List.Forall₂ ruleSame l l := by
  induction l with
  | nil => exact List.Forall₂.nil
  | cons a t ih => exact List.Forall₂.cons (ruleSame_refl a) ih

/-! ### Lemmas on the Go library functions -/

theorem HasPrefix_iff (s pre : String) : HasPrefix s pre = true ↔ pre.data <+: s.data := by
  unfold HasPrefix
  simp only [Bool.and_eq_true, decide_eq_true_eq, beq_iff_eq, String.length]
  constructor
  · rintro ⟨_, h2⟩
    rw [List.prefix_iff_eq_take]
    exact h2.symm
  · intro h
    refine ⟨h.length_le, ?_⟩
    exact (List.prefix_iff_eq_take.1 h).symm

theorem sortSlice_spec : SortSliceSpec sortSlice := by
  intro l
  refine ⟨List.perm_insertionSort _ l, ?_⟩
  have : IsTotal routeMapEntry (fun a b => ¬ pathLess b.path a.path) :=
    ⟨fun a b => by unfold pathLess; omega⟩
  have : IsTrans routeMapEntry (fun a b => ¬ pathLess b.path a.path) :=
    ⟨fun a b c h1 h2 => by unfold pathLess at *; omega⟩
  exact List.sorted_insertionSort (fun a b => ¬ pathLess b.path a.path) l

/-! ### Lemmas on the route table -/

theorem hostMap_foldl_paths (ingress : Ingress) (host h : String) (paths : List HTTPIngressPath)
    (rm : routeMap) :
    (paths.foldl (fun rm path => rm.appendEntry host ⟨ingress, path⟩) rm).hostMap h =
      rm.hostMap h ++ (if h = host then paths.map (fun path => ⟨ingress, path⟩) else []) := by
  induction paths generalizing rm with
  | nil => simp
  | cons a t ih =>
    rw [List.foldl_cons, ih]
    by_cases hh : h = host <;> simp [routeMap.appendEntry, hh]

theorem hostMap_addIngress (rm : routeMap) (ingress : Ingress) (h : String) :
    (rm.addIngress ingress).hostMap h = rm.hostMap h ++ ingressEntries h ingress := by
  unfold routeMap.addIngress ingressEntries
  generalize ingress.Spec.Rules = rules
  induction rules generalizing rm with
  | nil => simp
  | cons r t ih =>
    rw [List.foldl_cons, ih, List.flatMap_cons]
    cases hr : r.HTTP with
    | none => simp [ruleEntries, hr]
    | some http => simp [ruleEntries, hr, hostMap_foldl_paths]

theorem hostMap_foldl_addIngress (rm : routeMap) (order : List Ingress) (h : String) :
    (order.foldl routeMap.addIngress rm).hostMap h = rm.hostMap h ++ declaredEntries h order := by
  unfold declaredEntries
  induction order generalizing rm with
  | nil => simp
  | cons a t ih => rw [List.foldl_cons, ih, hostMap_addIngress, List.flatMap_cons, List.append_assoc]

theorem hostMap_buildRouteMap (sortSlice : List routeMapEntry → List routeMapEntry)
    (order : List Ingress) (h : String) :
    (buildRouteMap sortSlice order).hostMap h = sortSlice (declaredEntries h order) := by
  simp [buildRouteMap, routeMap.sort, hostMap_foldl_addIngress, newRouteMap]

theorem mem_ingressEntries (h : String) (ingress : Ingress) (e : routeMapEntry) :
    e ∈ ingressEntries h ingress ↔ e.ingress = ingress ∧ Declares ingress h e.path := by
  unfold ingressEntries Declares
  rw [List.mem_flatMap]
  constructor
  · rintro ⟨rule, hr, he⟩
    unfold ruleEntries at he
    cases hh : rule.HTTP with
    | none => simp [hh] at he
    | some http =>
      rw [hh] at he
      by_cases hc : h = rule.Host
      · simp only [hc, if_true, List.mem_map] at he
        obtain ⟨path, hp, rfl⟩ := he
        exact ⟨rfl, rule, hr, hc.symm, http, hh, hp⟩
      · simp [hc] at he
  · rintro ⟨hi, rule, hr, hc, http, hh, hp⟩
    refine ⟨rule, hr, ?_⟩
    unfold ruleEntries
    rw [hh]
    simp only [hc, if_true, List.mem_map]
    exact ⟨e.path, hp, by cases e; cases hi; rfl⟩

theorem mem_declaredEntries (h : String) (order : List Ingress) (e : routeMapEntry) :
    e ∈ declaredEntries h order ↔ e.ingress ∈ order ∧ Declares e.ingress h e.path := by
  unfold declaredEntries
  rw [List.mem_flatMap]
  constructor
  · rintro ⟨ingress, hi, he⟩
    obtain ⟨h1, h2⟩ := (mem_ingressEntries h ingress e).1 he
    subst h1
    exact ⟨hi, h2⟩
  · rintro ⟨hi, hd⟩
    exact ⟨e.ingress, hi, (mem_ingressEntries h e.ingress e).2 ⟨rfl, hd⟩⟩

theorem mem_hostMap_buildRouteMap (sortSlice : List routeMapEntry → List routeMapEntry)
    (hs : SortSliceSpec sortSlice) (order : List Ingress) (h : String) (e : routeMapEntry) :
    e ∈ (buildRouteMap sortSlice order).hostMap h ↔
      e.ingress ∈ order ∧ Declares e.ingress h e.path := by
  rw [hostMap_buildRouteMap, (hs _).1.mem_iff, mem_declaredEntries]

theorem matchEntry_eq_find (l : List routeMapEntry) (p : String) :
    matchEntry l p = l.find? (fun e => HasPrefix p e.path.Path) := by
  induction l with
  | nil => rfl
  | cons a t ih =>
    by_cases h : HasPrefix p a.path.Path = true
    · simp [matchEntry, h]
    · simp [matchEntry, h, ih]

theorem matchEntry_some (l : List routeMapEntry) (p : String) (e : routeMapEntry)
    (h : matchEntry l p = some e) : e ∈ l ∧ HasPrefix p e.path.Path = true := by
  rw [matchEntry_eq_find] at h
  exact ⟨List.mem_of_find?_eq_some h,
    @List.find?_some routeMapEntry (fun x => HasPrefix p x.path.Path) e l h⟩

theorem matchEntry_eq_none (l : List routeMapEntry) (p : String) :
    matchEntry l p = none ↔ ∀ e ∈ l, HasPrefix p e.path.Path = false := by
  rw [matchEntry_eq_find, List.find?_eq_none]
  simp

/-- The first match of a bucket sorted by `sort.Slice` is a longest match. -/
theorem matchEntry_longest (l : List routeMapEntry) (p : String) (e : routeMapEntry)
    (hsorted : l.Pairwise (fun a b => ¬ pathLess b.path a.path))
    (h : matchEntry l p = some e) :
    ∀ x ∈ l, HasPrefix p x.path.Path = true → x.path.Path.length ≤ e.path.Path.length := by
  induction l with
  | nil => simp [matchEntry] at h
  | cons a t ih =>
    rw [List.pairwise_cons] at hsorted
    intro x hx hpx
    by_cases ha : HasPrefix p a.path.Path = true
    · simp only [matchEntry, ha, if_true, Option.some.injEq] at h
      subst h
      rcases List.mem_cons.1 hx with rfl | hx
      · exact le_refl _
      · have := hsorted.1 x hx
        unfold pathLess at this
        omega
    · simp only [matchEntry, ha] at h
      rcases List.mem_cons.1 hx with rfl | hx
      · exact absurd hpx ha
      · exact ih hsorted.2 h x hx hpx

theorem match_of_matchEntry_some (rm : routeMap) (h p : String) (e : routeMapEntry)
    (hm : matchEntry (rm.hostMap h) p = some e) :
    rm.match_ h p = (e.ingress.Namespace, e.ingress.Name, entryAddr e, true) := by
  simp [routeMap.match_, hm]

theorem match_of_matchEntry_none (rm : routeMap) (h p : String)
    (hm : matchEntry (rm.hostMap h) p = none) :
    rm.match_ h p = ("", "", "", false) := by
  simp [routeMap.match_, hm]

theorem match_found_iff (rm : routeMap) (h p : String) :
    (rm.match_ h p).2.2.2 = true ↔ ∃ e, matchEntry (rm.hostMap h) p = some e := by
  cases hm : matchEntry (rm.hostMap h) p with
  | none => simp [routeMap.match_, hm]
  | some e => simp [routeMap.match_, hm]

/-! ### Lemmas on the rule store -/

theorem lookup_filter_ne (m : List (String × Ingress)) (k k' : String) :
    (m.filter (fun e => e.1 ≠ k)).lookup k' = if k' = k then none else m.lookup k' := by
  induction m with
  | nil => simp
  | cons a t ih =>
    obtain ⟨ka, va⟩ := a
    rw [List.filter_cons, List.lookup_cons]
    by_cases h1 : ka = k
    · have hd : decide ((ka, va).1 ≠ k) = false := by simp [h1]
      rw [hd, if_neg (by simp), ih]
      by_cases h2 : k' = k
      · rw [if_pos h2, if_pos h2]
      · have h3 : (k' == ka) = false := by rw [h1]; simpa using h2
        rw [h3]
    · have hd : decide ((ka, va).1 ≠ k) = true := by simp [h1]
      rw [hd, if_pos rfl, List.lookup_cons, ih]
      by_cases h2 : k' = k
      · have h3 : (k' == ka) = false := by
          rw [h2]; simpa using fun h => h1 h.symm
        rw [h3, if_pos h2]
      · simp only [if_neg h2]

theorem mapGet_mapSet_self (m : List (String × Ingress)) (k : String) (v : Ingress) :
    mapGet (mapSet m k v) k = some v := by
  unfold mapGet mapSet
  rw [List.lookup_append, lookup_filter_ne, if_pos rfl]
  simp

theorem mapGet_mapSet_other (m : List (String × Ingress)) (k k' : String) (v : Ingress)
    (h : k' ≠ k) : mapGet (mapSet m k v) k' = mapGet m k' := by
  have h3 : (k' == k) = false := by simpa using h
  unfold mapGet mapSet
  rw [List.lookup_append, lookup_filter_ne, if_neg h, List.lookup_cons, h3]
  simp

theorem mapGet_mapDelete_self (m : List (String × Ingress)) (k : String) :
    mapGet (mapDelete m k) k = none := by
  unfold mapGet mapDelete
  rw [lookup_filter_ne, if_pos rfl]

theorem mapGet_mapDelete_other (m : List (String × Ingress)) (k k' : String) (h : k' ≠ k) :
    mapGet (mapDelete m k) k' = mapGet m k' := by
  unfold mapGet mapDelete
  rw [lookup_filter_ne, if_neg h]

theorem mapDelete_absent (m : List (String × Ingress)) (k : String) (h : mapGet m k = none) :
    mapDelete m k = m := by
  unfold mapDelete
  rw [List.filter_eq_self]
  intro a ha
  unfold mapGet at h
  rw [List.lookup_eq_none_iff] at h
  have := h a ha
  simp only [decide_eq_true_eq]
  intro hk
  rw [hk] at this
  simp at this

theorem signal_state_ingressMap (ir : ingressRouter) :
    ir.signal.state.ingressMap = ir.ingressMap := by
  unfold ingressRouter.signal
  split <;> rfl

theorem signal_room (ir : ingressRouter) (h : ir.reloadChannel < reloadChannelCap) :
    ir.signal = Outcome.done { ir with reloadChannel := ir.reloadChannel + 1 } := by
  simp [ingressRouter.signal, h]

theorem signal_full (ir : ingressRouter) (h : ¬ ir.reloadChannel < reloadChannelCap) :
    ir.signal = Outcome.blocked ir := by
  simp [ingressRouter.signal, h]

theorem addIngressToMap_ingressMap (ir : ingressRouter) (ingress : Ingress) :
    (ir.addIngressToMap ingress).state.ingressMap =
      mapSet ir.ingressMap (ingressKey ingress) ingress := by
  unfold ingressRouter.addIngressToMap
  rw [signal_state_ingressMap]

theorem removeIngressFromMap_ingressMap (ir : ingressRouter) (ingress : Ingress) :
    (ir.removeIngressFromMap ingress).state.ingressMap =
      mapDelete ir.ingressMap (ingressKey ingress) := by
  unfold ingressRouter.removeIngressFromMap
  rw [signal_state_ingressMap]

theorem WF_new : NewIngressRouter.WF := by
  simp [ingressRouter.WF, NewIngressRouter]

theorem WF_mapSet (m : List (String × Ingress)) (ingress : Ingress)
    (h : (m.map Prod.fst).Nodup ∧ ∀ e ∈ m, e.1 = ingressKey e.2) :
    ((mapSet m (ingressKey ingress) ingress).map Prod.fst).Nodup ∧
      ∀ e ∈ mapSet m (ingressKey ingress) ingress, e.1 = ingressKey e.2 := by
  unfold mapSet
  constructor
  · rw [List.map_append, List.nodup_append]
    refine ⟨(h.1.sublist ((List.filter_sublist _).map _)), by simp, ?_⟩
    intro a ha hb
    simp only [List.map_cons, List.map_nil, List.mem_singleton] at hb
    subst hb
    simp at ha
  · intro e he
    rcases List.mem_append.1 he with he | he
    · exact h.2 e (List.mem_filter.1 he).1
    · simp only [List.mem_singleton] at he
      subst he
      rfl

theorem WF_mapDelete (m : List (String × Ingress)) (k : String)
    (h : (m.map Prod.fst).Nodup ∧ ∀ e ∈ m, e.1 = ingressKey e.2) :
    ((mapDelete m k).map Prod.fst).Nodup ∧ ∀ e ∈ mapDelete m k, e.1 = ingressKey e.2 := by
  unfold mapDelete
  exact ⟨h.1.sublist ((List.filter_sublist _).map _),
    fun e he => h.2 e (List.mem_filter.1 he).1⟩

theorem WF_addIngress (ir : ingressRouter) (obj : Obj) (h : ir.WF) :
    (ir.addIngress obj).state.WF := by
  cases obj with
  | other => exact h
  | ingress ig =>
    unfold ingressRouter.WF
    simp only [ingressRouter.addIngress]
    rw [addIngressToMap_ingressMap]
    exact WF_mapSet _ _ h

theorem WF_updateIngress (ir : ingressRouter) (oldObj newObj : Obj) (h : ir.WF) :
    (ir.updateIngress oldObj newObj).state.WF := by
  cases oldObj with
  | other => exact h
  | ingress o =>
    cases newObj with
    | other => exact h
    | ingress n =>
      simp only [ingressRouter.updateIngress]
      split
      · exact h
      · unfold ingressRouter.WF
        rw [addIngressToMap_ingressMap]
        exact WF_mapSet _ _ h

theorem WF_removeIngress (ir : ingressRouter) (obj : Obj) (h : ir.WF) :
    (ir.removeIngress obj).state.WF := by
  cases obj with
  | other => exact h
  | ingress ig =>
    unfold ingressRouter.WF
    simp only [ingressRouter.removeIngress]
    rw [removeIngressFromMap_ingressMap]
    exact WF_mapDelete _ _ h

theorem WF_updateRouteMap (sortSlice : List routeMapEntry → List routeMapEntry)
    (order : List Ingress) (ir : ingressRouter) (h : ir.WF) :
    (ir.updateRouteMap sortSlice order).WF := h

theorem match_eq_notfound_iff (rm : routeMap) (h p : String) :
    rm.match_ h p = ("", "", "", false) ↔ matchEntry (rm.hostMap h) p = none := by
  cases hm : matchEntry (rm.hostMap h) p with
  | none => simp [routeMap.match_, hm]
  | some e => simp [routeMap.match_, hm]

theorem MatchRequest_updateRouteMap (sortSlice : List routeMapEntry → List routeMapEntry)
    (order : List Ingress) (ir : ingressRouter) (r : Request) :
    (ir.updateRouteMap sortSlice order).MatchRequest r =
      (buildRouteMap sortSlice order).match_ (GetHostname r) r.URLPath := rfl

theorem match_found_entry (rm : routeMap) (h p ns name addr : String)
    (hres : rm.match_ h p = (ns, name, addr, true)) :
    ∃ entry, matchEntry (rm.hostMap h) p = some entry ∧ entry.ingress.Namespace = ns ∧
      entry.ingress.Name = name ∧ entryAddr entry = addr := by
  cases hm : matchEntry (rm.hostMap h) p with
  | none =>
    rw [match_of_matchEntry_none _ h p hm] at hres
    simp at hres
  | some entry =>
    rw [match_of_matchEntry_some _ h p entry hm] at hres
    simp only [Prod.mk.injEq, and_true] at hres
    exact ⟨entry, rfl, hres.1, hres.2.1, hres.2.2⟩

theorem matchEntry_build_some_iff (sortSlice : List routeMapEntry → List routeMapEntry)
    (hs : SortSliceSpec sortSlice) (order : List Ingress) (h q : String) :
    (∃ e, matchEntry ((buildRouteMap sortSlice order).hostMap h) q = some e) ↔
      ∃ ingress ∈ order, ∃ path, Declares ingress h path ∧ path.Path.data <+: q.data := by
  constructor
  · rintro ⟨e, hm⟩
    obtain ⟨hmem, hpre⟩ := matchEntry_some _ _ _ hm
    obtain ⟨hi, hd⟩ := (mem_hostMap_buildRouteMap sortSlice hs order h e).1 hmem
    exact ⟨e.ingress, hi, e.path, hd, (HasPrefix_iff _ _).1 hpre⟩
  · rintro ⟨ingress, hi, path, hd, hpre⟩
    cases hm : matchEntry ((buildRouteMap sortSlice order).hostMap h) q with
    | some e => exact ⟨e, rfl⟩
    | none =>
      have hmem : (⟨ingress, path⟩ : routeMapEntry) ∈
          (buildRouteMap sortSlice order).hostMap h :=
        (mem_hostMap_buildRouteMap sortSlice hs order h _).2 ⟨hi, hd⟩
      have hno := (matchEntry_eq_none _ _).1 hm _ hmem
      rw [(HasPrefix_iff _ _).2 hpre] at hno
      cases hno

theorem mem_rangeOrder (ir : ingressRouter) (order : List Ingress)
    (hord : ir.rangeOrder order) (ingress : Ingress) :
    ingress ∈ order ↔ ∃ e ∈ ir.ingressMap, e.2 = ingress := by
  unfold ingressRouter.rangeOrder at hord
  rw [hord.mem_iff, List.mem_map]

theorem mem_mapDelete (m : List (String × Ingress)) (k : String) (e : String × Ingress) :
    e ∈ mapDelete m k ↔ e ∈ m ∧ e.1 ≠ k := by
  unfold mapDelete
  rw [List.mem_filter]
  simp

theorem ingressKey_eq_of_identity (a b : Ingress) (hns : a.Namespace = b.Namespace)
    (hname : a.Name = b.Name) : ingressKey a = ingressKey b := by
  unfold ingressKey
  rw [hns, hname]

theorem filter_key_mapSet (m : List (String × Ingress)) (k : String) (v : Ingress) :
    (mapSet m k v).filter (fun e => e.1 = k) = [(k, v)] := by
  unfold mapSet
  rw [List.filter_append, List.filter_filter]
  have h1 : m.filter (fun a => decide (a.1 = k) && decide (a.1 ≠ k)) = [] := by
    rw [List.filter_eq_nil_iff]
    intro a _
    by_cases h : a.1 = k <;> simp [h]
  rw [h1]
  simp

theorem mapSet_mapSet (m : List (String × Ingress)) (k : String) (v w : Ingress) :
    mapSet (mapSet m k v) k w = mapSet m k w := by
  unfold mapSet
  rw [List.filter_append, List.filter_filter]
  have h1 : m.filter (fun a => decide (a.1 ≠ k) && decide (a.1 ≠ k)) =
      m.filter (fun a => decide (a.1 ≠ k)) := by
    apply List.filter_congr
    intro a _
    simp
  have h2 : [(k, v)].filter (fun e => decide (e.1 ≠ k)) = [] := by simp
  rw [h1, h2, List.append_nil]

theorem addIngress_room (ir : ingressRouter) (ingress : Ingress)
    (h : ir.reloadChannel < reloadChannelCap) :
    (ir.addIngress (Obj.ingress ingress)).state =
      ingressRouter.mk (mapSet ir.ingressMap (ingressKey ingress) ingress)
        (ir.reloadChannel + 1) ir.routemap := by
  simp [ingressRouter.addIngress, ingressRouter.addIngressToMap, ingressRouter.signal, h,
    Outcome.state]

/-- While the reload channel has room, `n + 1` calls of `addIngress` with one rule leave
that rule stored once under its key and add `n + 1` signals. -/
theorem addRepeatedly_succ (ingress : Ingress) (n : Nat) (ir : ingressRouter)
    (hroom : ir.reloadChannel + (n + 1) ≤ reloadChannelCap) :
    (addRepeatedly ingress (n + 1) ir).ingressMap =
        mapSet ir.ingressMap (ingressKey ingress) ingress ∧
      (addRepeatedly ingress (n + 1) ir).reloadChannel = ir.reloadChannel + (n + 1) := by
  induction n generalizing ir with
  | zero =>
    have hlt : ir.reloadChannel < reloadChannelCap := by omega
    have hrec : addRepeatedly ingress (0 + 1) ir =
        (ir.addIngress (Obj.ingress ingress)).state := rfl
    rw [hrec, addIngress_room ir ingress hlt]
    exact ⟨rfl, rfl⟩
  | succ n ih =>
    have hlt : ir.reloadChannel < reloadChannelCap := by omega
    have hrec : addRepeatedly ingress (n + 1 + 1) ir =
        addRepeatedly ingress (n + 1) (ir.addIngress (Obj.ingress ingress)).state := rfl
    rw [hrec, addIngress_room ir ingress hlt]
    have hroom2 : (ingressRouter.mk (mapSet ir.ingressMap (ingressKey ingress) ingress)
        (ir.reloadChannel + 1) ir.routemap).reloadChannel + (n + 1) ≤ reloadChannelCap := by
      show ir.reloadChannel + 1 + (n + 1) ≤ reloadChannelCap
      omega
    obtain ⟨h1, h2⟩ := ih _ hroom2
    refine ⟨?_, ?_⟩
    · rw [h1]
      exact mapSet_mapSet _ _ _ _
    · rw [h2]
      show ir.reloadChannel + 1 + (n + 1) = ir.reloadChannel + (n + 1 + 1)
      omega

/-! ### Further lemmas on `areIngressesTheSame` and on `GetHostname` -/

theorem ruleSame_symm (r1 r2 : IngressRule) (h : ruleSame r1 r2) : ruleSame r2 r1 := by
  rcases h with ⟨h1, h2⟩ | ⟨x, y, h1, h2, h3, h4⟩
  · exact Or.inl ⟨h2, h1⟩
  · exact Or.inr ⟨y, x, h2, h1, h3.symm, h4.symm⟩

theorem ruleSame_trans (r1 r2 r3 : IngressRule) (h12 : ruleSame r1 r2) (h23 : ruleSame r2 r3) :
    ruleSame r1 r3 := by
  rcases h12 with ⟨h1, h2⟩ | ⟨x, y, h1, h2, h3, h4⟩
  · rcases h23 with ⟨_, k2⟩ | ⟨x', _, k1, _, _, _⟩
    · exact Or.inl ⟨h1, k2⟩
    · rw [h2] at k1
      cases k1
  · rcases h23 with ⟨k1, _⟩ | ⟨y', z, k1, k2, k3, k4⟩
    · rw [h2] at k1
      cases k1
    · rw [h2] at k1
      cases k1
      exact Or.inr ⟨x, z, h1, k2, h3.trans k3, h4.trans k4⟩

theorem forall₂_ruleSame_symm (l1 l2 : List IngressRule) (h : List.Forall₂ ruleSame l1 l2) :
    List.Forall₂ ruleSame l2 l1 := by
  induction h with
  | nil => exact List.Forall₂.nil
  | cons hab _ ih => exact List.Forall₂.cons (ruleSame_symm _ _ hab) ih

theorem forall₂_ruleSame_trans (l1 l2 l3 : List IngressRule)
    (h12 : List.Forall₂ ruleSame l1 l2) (h23 : List.Forall₂ ruleSame l2 l3) :
    List.Forall₂ ruleSame l1 l3 := by
  induction h12 generalizing l3 with
  | nil =>
    cases h23
    exact List.Forall₂.nil
  | cons hab _ ih =>
    cases h23 with
    | cons hbc hrest => exact List.Forall₂.cons (ruleSame_trans _ _ _ hab hbc) (ih _ hrest)

theorem not_mem_take_indexOf (c : Char) (l : List Char) : c ∉ l.take (l.indexOf c) := by
  induction l with
  | nil => simp
  | cons a t ih =>
    by_cases h : a = c
    · rw [List.indexOf_cons_eq _ h]
      simp
    · rw [List.indexOf_cons_ne _ h, List.take_succ_cons, List.mem_cons, not_or]
      exact ⟨fun hc => h hc.symm, ih⟩

theorem take_indexOf_append (c : Char) (l t : List Char) (h : c ∉ l) :
    (l ++ c :: t).take ((l ++ c :: t).indexOf c) = l := by
  rw [List.indexOf_append_of_not_mem h, List.indexOf_cons_self, Nat.add_zero,
    List.take_left']
  rfl

theorem GetHostname_of_raw (r : Request) :
    GetHostname r =
      if ':' ∈ (if r.HeaderHost = "" then r.Host else r.HeaderHost).data then
        ⟨(if r.HeaderHost = "" then r.Host else r.HeaderHost).data.take
          ((if r.HeaderHost = "" then r.Host else r.HeaderHost).data.indexOf ':')⟩
      else (if r.HeaderHost = "" then r.Host else r.HeaderHost) := by
  unfold GetHostname IndexByte
  generalize (if r.HeaderHost = "" then r.Host else r.HeaderHost) = raw
  by_cases h : ':' ∈ raw.data
  · simp [h]
  · simp [h]

theorem GetHostname_no_colon (r : Request) : ':' ∉ (GetHostname r).data := by
  rw [GetHostname_of_raw]
  generalize (if r.HeaderHost = "" then r.Host else r.HeaderHost) = raw
  by_cases h : ':' ∈ raw.data
  · rw [if_pos h]
    exact not_mem_take_indexOf _ _
  · rw [if_neg h]
    exact h

theorem GetHostname_strip (r : Request) (h p : String) (hc : ':' ∉ h.data)
    (hraw : (if r.HeaderHost = "" then r.Host else r.HeaderHost) = h ++ ":" ++ p) :
    GetHostname r = h := by
  rw [GetHostname_of_raw, hraw]
  have hd : (h ++ ":" ++ p).data = h.data ++ ':' :: p.data := by
    simp [String.data_append]
  have hin : ':' ∈ (h ++ ":" ++ p).data := by
    rw [hd]
    simp
  rw [if_pos hin, hd, take_indexOf_append _ _ _ hc]

theorem GetHostname_plain (r : Request) (h : String) (hc : ':' ∉ h.data)
    (hraw : (if r.HeaderHost = "" then r.Host else r.HeaderHost) = h) :
    GetHostname r = h := by
  rw [GetHostname_of_raw, hraw, if_neg hc]

/-! ### Lemmas on the store key, the signal and reachable states -/

theorem append_sep_inj (c : Char) (l1 l2 t1 t2 : List Char) (h1 : c ∉ l1) (h2 : c ∉ l2)
    (h : l1 ++ c :: t1 = l2 ++ c :: t2) : l1 = l2 ∧ t1 = t2 := by
  have e1 := take_indexOf_append c l1 t1 h1
  have e2 := take_indexOf_append c l2 t2 h2
  rw [h, e2] at e1
  subst e1
  have := List.append_cancel_left h
  exact ⟨rfl, (List.cons.inj this).2⟩

theorem ingressKey_data (a : Ingress) :
    (ingressKey a).data = a.Namespace.data ++ '/' :: a.Name.data := by
  simp [ingressKey, String.data_append]

theorem ingressKey_inj (a b : Ingress)
    (hslash : ('/' ∉ a.Namespace.data ∧ '/' ∉ b.Namespace.data) ∨
      ('/' ∉ a.Name.data ∧ '/' ∉ b.Name.data))
    (hkey : ingressKey a = ingressKey b) : a.Namespace = b.Namespace ∧ a.Name = b.Name := by
  have hd : a.Namespace.data ++ '/' :: a.Name.data = b.Namespace.data ++ '/' :: b.Name.data := by
    rw [← ingressKey_data, ← ingressKey_data, hkey]
  rcases hslash with ⟨h1, h2⟩ | ⟨h1, h2⟩
  · obtain ⟨e1, e2⟩ := append_sep_inj '/' _ _ _ _ h1 h2 hd
    exact ⟨String.ext e1, String.ext e2⟩
  · have hr := congrArg List.reverse hd
    simp only [List.reverse_append, List.reverse_cons, List.append_assoc,
      List.singleton_append] at hr
    obtain ⟨e1, e2⟩ := append_sep_inj '/' _ _ _ _
      (by simpa using h1) (by simpa using h2) hr
    exact ⟨String.ext (List.reverse_injective e2), String.ext (List.reverse_injective e1)⟩

theorem signal_state_routemap (ir : ingressRouter) : ir.signal.state.routemap = ir.routemap := by
  unfold ingressRouter.signal
  split <;> rfl

theorem signal_isDone (ir : ingressRouter) :
    ir.signal.isDone = decide (ir.reloadChannel < reloadChannelCap) := by
  unfold ingressRouter.signal
  split <;> simp [Outcome.isDone, *]

theorem signal_state_full (ir : ingressRouter) (h : ¬ ir.reloadChannel < reloadChannelCap) :
    ir.signal.state = ir := by
  rw [signal_full ir h]
  rfl

theorem signal_state_reloadChannel_full (ir : ingressRouter)
    (h : ¬ ir.reloadChannel < reloadChannelCap) :
    ir.signal.state.reloadChannel = ir.reloadChannel := by
  rw [signal_state_full ir h]

theorem addIngress_routemap (ir : ingressRouter) (obj : Obj) :
    (ir.addIngress obj).state.routemap = ir.routemap := by
  cases obj with
  | other => rfl
  | ingress ig =>
    simp only [ingressRouter.addIngress, ingressRouter.addIngressToMap, signal_state_routemap]

theorem updateIngress_routemap (ir : ingressRouter) (oldObj newObj : Obj) :
    (ir.updateIngress oldObj newObj).state.routemap = ir.routemap := by
  cases oldObj with
  | other => rfl
  | ingress o =>
    cases newObj with
    | other => rfl
    | ingress n =>
      simp only [ingressRouter.updateIngress]
      split
      · rfl
      · simp only [ingressRouter.addIngressToMap, signal_state_routemap]

theorem removeIngress_routemap (ir : ingressRouter) (obj : Obj) :
    (ir.removeIngress obj).state.routemap = ir.routemap := by
  cases obj with
  | other => rfl
  | ingress ig =>
    simp only [ingressRouter.removeIngress, ingressRouter.removeIngressFromMap,
      signal_state_routemap]

/-- Every reachable state has a well-formed rule store. -/
theorem Reachable.wf (sortSlice : List routeMapEntry → List routeMapEntry) (ir : ingressRouter)
    (h : Reachable sortSlice ir) : ir.WF := by
  induction h with
  | init => exact WF_new
  | add ir obj _ ih => exact WF_addIngress ir obj ih
  | update ir o n _ ih => exact WF_updateIngress ir o n ih
  | remove ir obj _ ih => exact WF_removeIngress ir obj ih
  | rebuild ir order _ _ ih => exact WF_updateRouteMap sortSlice order ir ih

/-- Every table published in a reachable state has sorted buckets. -/
theorem Reachable.sorted (sortSlice : List routeMapEntry → List routeMapEntry)
    (hs : SortSliceSpec sortSlice) (ir : ingressRouter) (h : Reachable sortSlice ir) :
    ∀ rm, ir.routemap = some rm →
      ∀ host, (rm.hostMap host).Pairwise (fun a b => ¬ pathLess b.path a.path) := by
  induction h with
  | init =>
    intro rm hrm
    cases hrm
  | add ir obj _ ih =>
    intro rm hrm
    rw [addIngress_routemap] at hrm
    exact ih rm hrm
  | update ir o n _ ih =>
    intro rm hrm
    rw [updateIngress_routemap] at hrm
    exact ih rm hrm
  | remove ir obj _ ih =>
    intro rm hrm
    rw [removeIngress_routemap] at hrm
    exact ih rm hrm
  | rebuild ir order _ _ _ =>
    intro rm hrm host
    simp only [ingressRouter.updateRouteMap, Option.some.injEq] at hrm
    subst hrm
    rw [hostMap_buildRouteMap]
    exact (hs _).2

/-! ### Lemmas on visiting orders and ties -/

theorem declaredEntries_perm (h : String) (order1 order2 : List Ingress)
    (hp : order1.Perm order2) : (declaredEntries h order1).Perm (declaredEntries h order2) :=
  List.Perm.flatMap_right _ hp

/-- Two reorderings of an unambiguous bucket that are both sorted as `sort.Slice` leaves
them give the same first match. -/
theorem matchEntry_sorted_perm (h p : String) (order : List Ingress) (hun : Unambiguous order)
    (l1 l2 : List routeMapEntry) (hp1 : l1.Perm (declaredEntries h order))
    (hp2 : l2.Perm (declaredEntries h order))
    (hs1 : l1.Pairwise (fun a b => ¬ pathLess b.path a.path))
    (hs2 : l2.Pairwise (fun a b => ¬ pathLess b.path a.path)) :
    matchEntry l1 p = matchEntry l2 p := by
  have h12 : ∀ e, e ∈ l1 ↔ e ∈ l2 := fun e => (hp1.trans hp2.symm).mem_iff
  cases hm1 : matchEntry l1 p with
  | none =>
    cases hm2 : matchEntry l2 p with
    | none => rfl
    | some e2 =>
      obtain ⟨hin, hpre⟩ := matchEntry_some _ _ _ hm2
      have := (matchEntry_eq_none _ _).1 hm1 e2 ((h12 e2).2 hin)
      rw [hpre] at this
      cases this
  | some e1 =>
    obtain ⟨hin1, hpre1⟩ := matchEntry_some _ _ _ hm1
    cases hm2 : matchEntry l2 p with
    | none =>
      have := (matchEntry_eq_none _ _).1 hm2 e1 ((h12 e1).1 hin1)
      rw [hpre1] at this
      cases this
    | some e2 =>
      obtain ⟨hin2, hpre2⟩ := matchEntry_some _ _ _ hm2
      have hle1 := matchEntry_longest l1 p e1 hs1 hm1 e2 ((h12 e2).2 hin2) hpre2
      have hle2 := matchEntry_longest l2 p e2 hs2 hm2 e1 ((h12 e1).1 hin1) hpre1
      have hlen : e1.path.Path.data.length = e2.path.Path.data.length :=
        Nat.le_antisymm hle2 hle1
      have hpp : e1.path.Path.data <+: e2.path.Path.data :=
        List.prefix_of_prefix_length_le ((HasPrefix_iff _ _).1 hpre1)
          ((HasPrefix_iff _ _).1 hpre2) (Nat.le_of_eq hlen)
      have hpath : e1.path.Path = e2.path.Path := String.ext (hpp.eq_of_length hlen)
      obtain ⟨hi1, hd1⟩ := (mem_declaredEntries h order e1).1 (hp1.mem_iff.1 hin1)
      obtain ⟨hi2, hd2⟩ := (mem_declaredEntries h order e2).1 (hp2.mem_iff.1 hin2)
      obtain ⟨ei, ep⟩ := hun h _ hi1 _ hi2 _ _ hd1 hd2 hpath
      cases e1
      cases e2
      simp only at ei ep
      subst ei ep
      rfl

theorem sortSlice_byLess : SortSliceByLess sortSlice := by
  intro f l hf
  unfold sortSlice
  symm
  apply List.map_insertionSort
  intro a _ b _
  unfold pathLess
  rw [hf a, hf b]

theorem replaceEntry_path (a b : Ingress) (e : routeMapEntry) :
    (replaceEntry a b e).path = e.path := by
  unfold replaceEntry
  split <;> rfl

theorem ruleEntries_of_ruleSame (h : String) (a b : Ingress) (r1 r2 : IngressRule)
    (hr : ruleSame r1 r2) :
    ruleEntries h b r2 = (ruleEntries h a r1).map (fun e => ⟨b, e.path⟩) := by
  rcases hr with ⟨h1, h2⟩ | ⟨x, y, h1, h2, h3, h4⟩
  · simp [ruleEntries, h1, h2]
  · unfold ruleEntries
    rw [h1, h2]
    simp only [h3, h4]
    split
    · simp [List.map_map, Function.comp_def]
    · rfl

theorem ingressEntries_of_same (h : String) (a b : Ingress)
    (hsame : areIngressesTheSame a b = true) :
    ingressEntries h b = (ingressEntries h a).map (fun e => ⟨b, e.path⟩) := by
  have hf := (areIngressesTheSame_iff a b).1 hsame
  unfold ingressEntries
  generalize a.Spec.Rules = l1 at hf
  generalize b.Spec.Rules = l2 at hf
  induction hf with
  | nil => rfl
  | cons hr _ ih =>
    rw [List.flatMap_cons, List.flatMap_cons, List.map_append, ih,
      ruleEntries_of_ruleSame h a b _ _ hr]

theorem ingressEntries_replaceEntry (h : String) (a b x : Ingress)
    (hsame : areIngressesTheSame a b = true) :
    ingressEntries h (if x = a then b else x) = (ingressEntries h x).map (replaceEntry a b) := by
  by_cases hx : x = a
  · subst hx
    rw [if_pos rfl, ingressEntries_of_same h x b hsame]
    apply List.map_congr_left
    intro e he
    have := ((mem_ingressEntries h x e).1 he).1
    simp [replaceEntry, this]
  · rw [if_neg hx]
    symm
    conv_rhs => rw [← List.map_id (ingressEntries h x)]
    apply List.map_congr_left
    intro e he
    have := ((mem_ingressEntries h x e).1 he).1
    simp [replaceEntry, this, hx]

theorem declaredEntries_replaceIngress (h : String) (a b : Ingress) (order : List Ingress)
    (hsame : areIngressesTheSame a b = true) :
    declaredEntries h (replaceIngress a b order) =
      (declaredEntries h order).map (replaceEntry a b) := by
  unfold declaredEntries replaceIngress
  induction order with
  | nil => rfl
  | cons x t ih =>
    rw [List.map_cons, List.flatMap_cons, List.flatMap_cons, List.map_append, ih,
      ingressEntries_replaceEntry h a b x hsame]

theorem matchEntry_map_replaceEntry (a b : Ingress) (l : List routeMapEntry) (p : String) :
    matchEntry (l.map (replaceEntry a b)) p = (matchEntry l p).map (replaceEntry a b) := by
  induction l with
  | nil => rfl
  | cons e t ih =>
    rw [List.map_cons]
    unfold matchEntry
    rw [replaceEntry_path]
    split
    · rfl
    · exact ih

/-! ## The matcher on a built table -/

/-- C1, longest-prefix priority. On the table `updateRouteMap` builds from any visiting
order of any snapshot, with any `sort.Slice`: when `match` reports found, the entry at
which its loop returned has a path prefix at least as long as every path declared for the
hostname that is a prefix of the request path. In particular, when `/sub` is declared on
a host and every prefix declared on it is `/` or `/sub`, the request `/sub/x` returns a
`/sub` entry. -/
theorem match_returns_longest (sortSlice : List routeMapEntry → List routeMapEntry)
    (hs : SortSliceSpec sortSlice) (order : List Ingress) (h p : String) :
    (((buildRouteMap sortSlice order).match_ h p).2.2.2 = true →
      ∃ entry, matchEntry ((buildRouteMap sortSlice order).hostMap h) p = some entry ∧
        (buildRouteMap sortSlice order).match_ h p =
          (entry.ingress.Namespace, entry.ingress.Name, entryAddr entry, true) ∧
        ∀ ingress ∈ order, ∀ path, Declares ingress h path → path.Path.data <+: p.data →
          path.Path.length ≤ entry.path.Path.length) ∧
    ((∃ ingress ∈ order, ∃ path, Declares ingress h path ∧ path.Path = "/sub") →
      (∀ ingress ∈ order, ∀ path, Declares ingress h path →
        path.Path = "/" ∨ path.Path = "/sub") →
      ∃ entry, matchEntry ((buildRouteMap sortSlice order).hostMap h) "/sub/x" = some entry ∧
        entry.path.Path = "/sub" ∧
        (buildRouteMap sortSlice order).match_ h "/sub/x" =
          (entry.ingress.Namespace, entry.ingress.Name, entryAddr entry, true)) := by
  have key : ∀ q entry, matchEntry ((buildRouteMap sortSlice order).hostMap h) q = some entry →
      ∀ ingress ∈ order, ∀ path, Declares ingress h path → path.Path.data <+: q.data →
        path.Path.length ≤ entry.path.Path.length := by
    intro q entry hm ingress hi path hd hpre
    have hsorted : ((buildRouteMap sortSlice order).hostMap h).Pairwise
        (fun a b => ¬ pathLess b.path a.path) := by
      rw [hostMap_buildRouteMap]
      exact (hs _).2
    have hmem : (⟨ingress, path⟩ : routeMapEntry) ∈ (buildRouteMap sortSlice order).hostMap h :=
      (mem_hostMap_buildRouteMap sortSlice hs order h _).2 ⟨hi, hd⟩
    exact matchEntry_longest _ q entry hsorted hm _ hmem ((HasPrefix_iff _ _).2 hpre)
  constructor
  · intro hfound
    obtain ⟨entry, hm⟩ := (match_found_iff _ h p).1 hfound
    exact ⟨entry, hm, match_of_matchEntry_some _ h p entry hm, key p entry hm⟩
  · rintro ⟨ingress, hi, path, hd, hsub⟩ honly
    have hpre : path.Path.data <+: ("/sub/x" : String).data := by
      rw [hsub, ← HasPrefix_iff]
      decide
    cases hm : matchEntry ((buildRouteMap sortSlice order).hostMap h) "/sub/x" with
    | none =>
      have hmem : (⟨ingress, path⟩ : routeMapEntry) ∈ (buildRouteMap sortSlice order).hostMap h :=
        (mem_hostMap_buildRouteMap sortSlice hs order h _).2 ⟨hi, hd⟩
      have hno := (matchEntry_eq_none _ _).1 hm _ hmem
      rw [(HasPrefix_iff _ _).2 hpre] at hno
      cases hno
    | some entry =>
      refine ⟨entry, rfl, ?_, match_of_matchEntry_some _ h _ entry hm⟩
      have hlen := key _ entry hm ingress hi path hd hpre
      have hin := (mem_hostMap_buildRouteMap sortSlice hs order h entry).1
        (matchEntry_some _ _ _ hm).1
      rcases honly entry.ingress hin.1 entry.path hin.2 with h1 | h1
      · rw [hsub, h1] at hlen
        exact absurd hlen (by decide)
      · exact h1

/-- C2, match completeness. On the table built from any visiting order of any snapshot:
`match` reports found exactly when some rule of the snapshot declares, under the
hostname itself and in an HTTP section, a path that is a plain string prefix of the
request path; otherwise it returns four zero values. The prefix test is not
segment-aware: a declared `/foo` makes `/foobar` found. -/
theorem match_complete (sortSlice : List routeMapEntry → List routeMapEntry)
    (hs : SortSliceSpec sortSlice) (order : List Ingress) (h p : String) :
    (((buildRouteMap sortSlice order).match_ h p).2.2.2 = true ↔
      ∃ ingress ∈ order, ∃ path, Declares ingress h path ∧ path.Path.data <+: p.data) ∧
    ((¬ ∃ ingress ∈ order, ∃ path, Declares ingress h path ∧ path.Path.data <+: p.data) →
      (buildRouteMap sortSlice order).match_ h p = ("", "", "", false)) ∧
    ((∃ ingress ∈ order, ∃ path, Declares ingress h path ∧ path.Path = "/foo") →
      ((buildRouteMap sortSlice order).match_ h "/foobar").2.2.2 = true) := by
  have key : ∀ q, (((buildRouteMap sortSlice order).match_ h q).2.2.2 = true ↔
      ∃ ingress ∈ order, ∃ path, Declares ingress h path ∧ path.Path.data <+: q.data) := by
    intro q
    rw [match_found_iff]
    exact matchEntry_build_some_iff sortSlice hs order h q
  refine ⟨key p, ?_, ?_⟩
  · intro hno
    cases hm : matchEntry ((buildRouteMap sortSlice order).hostMap h) p with
    | none => exact match_of_matchEntry_none _ h p hm
    | some e => exact absurd ((key p).1 ((match_found_iff _ h p).2 ⟨e, hm⟩)) hno
  · rintro ⟨ingress, hi, path, hd, hfoo⟩
    refine (key "/foobar").2 ⟨ingress, hi, path, hd, ?_⟩
    rw [hfoo, ← HasPrefix_iff]
    decide

/-- C3, match soundness and host isolation. Whenever `match` on a built table returns
`(ns, name, addr, true)`, a rule of the snapshot with that namespace and name has a rule
entry whose host is the requested hostname, with an HTTP section listing a path that is
a prefix of the request path, and `addr` is the service name, `.`, the namespace,
`.svc:` and the port rendered as a string. The entry at which the loop returns always
comes from a rule entry for the requested hostname, so a rule whose entries are all for
`bar.com` is never returned for `foo.com`. -/
theorem match_sound (sortSlice : List routeMapEntry → List routeMapEntry)
    (hs : SortSliceSpec sortSlice) (order : List Ingress) (h p : String) :
    (∀ ns name addr, (buildRouteMap sortSlice order).match_ h p = (ns, name, addr, true) →
      ∃ ingress ∈ order, ingress.Namespace = ns ∧ ingress.Name = name ∧
        ∃ rule ∈ ingress.Spec.Rules, rule.Host = h ∧ ∃ http, rule.HTTP = some http ∧
          ∃ path ∈ http.Paths, path.Path.data <+: p.data ∧
            addr = path.Backend.ServiceName ++ "." ++ ns ++ ".svc:" ++
              path.Backend.ServicePort.String) ∧
    (∀ entry, matchEntry ((buildRouteMap sortSlice order).hostMap h) p = some entry →
      entry.ingress ∈ order ∧ ∃ rule ∈ entry.ingress.Spec.Rules, rule.Host = h ∧
        ∃ http, rule.HTTP = some http ∧ entry.path ∈ http.Paths) ∧
    (∀ ingress : Ingress, (∀ rule ∈ ingress.Spec.Rules, rule.Host = "bar.com") →
      ∀ entry q, matchEntry ((buildRouteMap sortSlice order).hostMap "foo.com") q = some entry →
        entry.ingress ≠ ingress) := by
  have key : ∀ h' q entry,
      matchEntry ((buildRouteMap sortSlice order).hostMap h') q = some entry →
      entry.ingress ∈ order ∧ ∃ rule ∈ entry.ingress.Spec.Rules, rule.Host = h' ∧
        ∃ http, rule.HTTP = some http ∧ entry.path ∈ http.Paths := by
    intro h' q entry hm
    exact (mem_hostMap_buildRouteMap sortSlice hs order h' entry).1 (matchEntry_some _ _ _ hm).1
  refine ⟨?_, key h p, ?_⟩
  · intro ns name addr hres
    cases hm : matchEntry ((buildRouteMap sortSlice order).hostMap h) p with
    | none =>
      rw [match_of_matchEntry_none _ h p hm] at hres
      simp at hres
    | some entry =>
      rw [match_of_matchEntry_some _ h p entry hm] at hres
      simp only [Prod.mk.injEq, and_true] at hres
      obtain ⟨h1, h2, h3⟩ := hres
      obtain ⟨hi, rule, hr, hh, http, hhttp, hp⟩ := key h p entry hm
      refine ⟨entry.ingress, hi, h1, h2, rule, hr, hh, http, hhttp, entry.path, hp,
        (HasPrefix_iff _ _).1 (matchEntry_some _ _ _ hm).2, ?_⟩
      rw [← h3, ← h1]
      rfl
  · intro ingress hall entry q hm hne
    obtain ⟨_, rule, hr, hh, _⟩ := key "foo.com" q entry hm
    rw [hne] at hr
    have := hall rule hr
    rw [hh] at this
    exact absurd this (by decide)

theorem match_returns_longest_witness :
    SortSliceSpec sortSlice ∧
    (∃ entry, matchEntry ((buildRouteMap sortSlice [ingress1, ingress2, ingress3]).hostMap
        "bar.com") "/subpath" = some entry ∧
      (buildRouteMap sortSlice [ingress1, ingress2, ingress3]).match_ "bar.com" "/subpath" =
        (entry.ingress.Namespace, entry.ingress.Name, entryAddr entry, true) ∧
      ∀ ingress ∈ [ingress1, ingress2, ingress3], ∀ path, Declares ingress "bar.com" path →
        path.Path.data <+: ("/subpath" : String).data →
        path.Path.length ≤ entry.path.Path.length) ∧
    (∃ entry, matchEntry ((buildRouteMap sortSlice [ingressSub]).hostMap "foo.com") "/sub/x" =
        some entry ∧ entry.path.Path = "/sub" ∧
      (buildRouteMap sortSlice [ingressSub]).match_ "foo.com" "/sub/x" =
        (entry.ingress.Namespace, entry.ingress.Name, entryAddr entry, true)) :=
  ⟨sortSlice_spec,
    (match_returns_longest sortSlice sortSlice_spec [ingress1, ingress2, ingress3] "bar.com"
      "/subpath").1 (by decide),
    (match_returns_longest sortSlice sortSlice_spec [ingressSub] "foo.com" "/sub/x").2
      ⟨ingressSub, by simp, ⟨"/sub", "sub", FromInt 8080⟩,
        ⟨_, List.mem_cons_self _ _, rfl, _, rfl, by simp⟩, rfl⟩
      (by
        intro ingress hi path hd
        rw [List.mem_singleton] at hi
        subst hi
        obtain ⟨rule, hr, _, http, hh, hp⟩ := hd
        simp only [ingressSub, List.mem_singleton] at hr
        subst hr
        simp only [Option.some.injEq] at hh
        subst hh
        simp only [List.mem_cons, List.mem_singleton, List.not_mem_nil, or_false] at hp
        rcases hp with rfl | rfl
        · exact Or.inl rfl
        · exact Or.inr rfl)⟩

theorem match_complete_witness :
    SortSliceSpec sortSlice ∧
    (((buildRouteMap sortSlice [ingress1, ingress2, ingress3]).match_ "bar.com"
        "/some-path").2.2.2 = true ↔
      ∃ ingress ∈ [ingress1, ingress2, ingress3], ∃ path, Declares ingress "bar.com" path ∧
        path.Path.data <+: ("/some-path" : String).data) ∧
    (buildRouteMap sortSlice [ingress1, ingress2, ingress3]).match_ "bar.com" "/some-path" =
      ("ns2", "name2", "svc2.ns2.svc:80", true) ∧
    (buildRouteMap sortSlice [ingress1, ingress2, ingress3]).match_ "unknown" "/subpath" =
      ("", "", "", false) :=
  ⟨sortSlice_spec,
    (match_complete sortSlice sortSlice_spec [ingress1, ingress2, ingress3] "bar.com"
      "/some-path").1,
    by decide, by decide⟩

theorem match_sound_witness :
    SortSliceSpec sortSlice ∧
    (buildRouteMap sortSlice [ingress1, ingress2, ingress3]).match_ "bar.com" "/some-path" =
      ("ns2", "name2", "svc2.ns2.svc:80", true) ∧
    ∃ ingress ∈ [ingress1, ingress2, ingress3], ingress.Namespace = "ns2" ∧
      ingress.Name = "name2" ∧
      ∃ rule ∈ ingress.Spec.Rules, rule.Host = "bar.com" ∧ ∃ http, rule.HTTP = some http ∧
        ∃ path ∈ http.Paths, path.Path.data <+: ("/some-path" : String).data ∧
          "svc2.ns2.svc:80" = path.Backend.ServiceName ++ "." ++ "ns2" ++ ".svc:" ++
            path.Backend.ServicePort.String :=
  ⟨sortSlice_spec, by decide,
    (match_sound sortSlice sortSlice_spec [ingress1, ingress2, ingress3] "bar.com"
      "/some-path").1 "ns2" "name2" "svc2.ns2.svc:80" (by decide)⟩

/-! ## Visiting order of the rule store -/

/-- C4, at the store of the test "It matches on the first ingress". The store holds
`ingress1`, `ingress2` and `ingress3`; both `ingress1` and `ingress3` declare `foo.com`
with the prefix `/`. Both orders below are orders in which `range` may visit that store.
Visiting `ingress1` first gives the result the test requires; visiting `ingress3` first
gives `ingress3`, with its empty namespace and name. -/
theorem updateRouteMap_order_changes_match :
    testRouter.rangeOrder [ingress1, ingress2, ingress3] ∧
    testRouter.rangeOrder [ingress3, ingress1, ingress2] ∧
    (testRouter.updateRouteMap sortSlice [ingress1, ingress2, ingress3]).MatchRequest
      requestFooPath1 = ("ns1", "name1", "svc11.ns1.svc:80", true) ∧
    (testRouter.updateRouteMap sortSlice [ingress3, ingress1, ingress2]).MatchRequest
      requestFooPath1 = ("", "", "svc1..svc:80", true) := by
  refine ⟨?_, ?_, by decide, by decide⟩
  · unfold ingressRouter.rangeOrder
    decide
  · unfold ingressRouter.rangeOrder
    decide

/-! ## Rule-body equality -/

/-- C5 fails as stated: two rules whose only rule entry has no HTTP section and whose
hosts differ (`a.com`, `b.com`) are reported the same, although their host lists
differ. -/
theorem areIngressesTheSame_skips_hosts_without_http :
    areIngressesTheSame ingressPlainA ingressPlainB = true ∧
    ¬ sameBodySpec ingressPlainA ingressPlainB := by
  refine ⟨by decide, ?_⟩
  intro h
  exact absurd h.1 (by decide)

/-- C5, amended. `areIngressesTheSame a b` is true exactly when the two rule lists have
the same length and, position by position, either both rule entries lack an HTTP section
(their hosts are then not compared) or both have one, with the same host and the same
ordered path list (path string, service name and service port). Rules with the same
body in the sense of the specification are therefore always reported the same, and the
result is false when the rule counts differ, when one side only has an HTTP section, and
when two entries with an HTTP section differ in host or in a path. -/
theorem areIngressesTheSame_iff_positions (a b : Ingress) :
    (areIngressesTheSame a b = true ↔ List.Forall₂ ruleSame a.Spec.Rules b.Spec.Rules) ∧
    (sameBodySpec a b → areIngressesTheSame a b = true) ∧
    (a.Spec.Rules.length ≠ b.Spec.Rules.length → areIngressesTheSame a b = false) ∧
    (∀ i (h1 : i < a.Spec.Rules.length) (h2 : i < b.Spec.Rules.length),
      ¬ ruleSame (a.Spec.Rules.get ⟨i, h1⟩) (b.Spec.Rules.get ⟨i, h2⟩) →
        areIngressesTheSame a b = false) := by
  refine ⟨areIngressesTheSame_iff a b, ?_, ?_, ?_⟩
  rotate_left 2
  · intro i h1 h2 hne
    cases hsame : areIngressesTheSame a b with
    | false => rfl
    | true => exact absurd (((areIngressesTheSame_iff a b).1 hsame).get h1 h2) hne
  · rintro ⟨h1, h2⟩
    have hr : a.Spec.Rules = b.Spec.Rules := by
      have h3 : a.Spec.Rules.map (fun r => (r.Host, r.HTTP)) =
          b.Spec.Rules.map (fun r => (r.Host, r.HTTP)) := by
        have hz : ∀ l : List IngressRule, l.map (fun r => (r.Host, r.HTTP)) =
            (l.map (fun r => r.Host)).zip (l.map (fun r => r.HTTP)) := by
          intro l
          induction l with
          | nil => rfl
          | cons x t ih => simp [ih]
        rw [hz, hz, h1, h2]
      have hinj : Function.Injective (fun r : IngressRule => (r.Host, r.HTTP)) := by
        intro x y hxy
        cases x; cases y
        simp only [Prod.mk.injEq] at hxy
        obtain ⟨rfl, rfl⟩ := hxy
        rfl
      exact List.map_injective_iff.2 hinj h3
    rw [areIngressesTheSame_iff, hr]
    exact forall₂_ruleSame_refl _
  · intro hlen
    simp [areIngressesTheSame, hlen]

theorem areIngressesTheSame_iff_positions_witness :
    sameBodySpec ingress1 ingress1 ∧ areIngressesTheSame ingress1 ingress1 = true ∧
    ingress1.Spec.Rules.length ≠ ingress2.Spec.Rules.length ∧
    areIngressesTheSame ingress1 ingress2 = false :=
  ⟨⟨rfl, rfl⟩, (areIngressesTheSame_iff_positions ingress1 ingress1).2.1 ⟨rfl, rfl⟩,
    by decide, (areIngressesTheSame_iff_positions ingress1 ingress2).2.2.1 (by decide)⟩

/-! ## Event handlers and the rule store -/

/-- C6 fails as stated: `routerWith1` holds `ingress1` at its identity, the incoming rule
is `ingress1` itself (an equivalent body), and `addIngress` returns with one more signal
in the reload channel. With `ingressPlainA` stored and the equivalent `ingressPlainB`
incoming, the stored rule is replaced as well. -/
theorem addIngress_equivalent_body_still_signals :
    mapGet routerWith1.ingressMap (ingressKey ingress1) = some ingress1 ∧
    areIngressesTheSame ingress1 ingress1 = true ∧
    (routerWith1.addIngress (Obj.ingress ingress1)).isDone = true ∧
    (routerWith1.addIngress (Obj.ingress ingress1)).state.reloadChannel =
      routerWith1.reloadChannel + 1 ∧
    areIngressesTheSame ingressPlainA ingressPlainB = true ∧
    ingressKey ingressPlainA = ingressKey ingressPlainB ∧
    mapGet (NewIngressRouter.addIngress (Obj.ingress ingressPlainA)).state.ingressMap
      (ingressKey ingressPlainB) = some ingressPlainA ∧
    mapGet ((NewIngressRouter.addIngress (Obj.ingress ingressPlainA)).state.addIngress
      (Obj.ingress ingressPlainB)).state.ingressMap (ingressKey ingressPlainB) =
        some ingressPlainB := by
  decide

/-- C6, amended. `addIngress` makes no comparison with the stored entry: in every router
state it stores the incoming rule under its key and leaves every other key as it was, so
the content of the store is unchanged when the stored entry is the incoming rule itself;
and when the reload channel holds fewer than 1000 signals it returns with exactly one
signal added, whether or not an equivalent entry was stored. -/
theorem addIngress_stores_and_signals (ir : ingressRouter) (ingress : Ingress) :
    mapGet (ir.addIngress (Obj.ingress ingress)).state.ingressMap (ingressKey ingress) =
      some ingress ∧
    (∀ k, k ≠ ingressKey ingress →
      mapGet (ir.addIngress (Obj.ingress ingress)).state.ingressMap k =
        mapGet ir.ingressMap k) ∧
    (mapGet ir.ingressMap (ingressKey ingress) = some ingress →
      ∀ k, mapGet (ir.addIngress (Obj.ingress ingress)).state.ingressMap k =
        mapGet ir.ingressMap k) ∧
    (ir.reloadChannel < reloadChannelCap →
      ∃ s, ir.addIngress (Obj.ingress ingress) = Outcome.done s ∧
        s.reloadChannel = ir.reloadChannel + 1) := by
  have hmap : (ir.addIngress (Obj.ingress ingress)).state.ingressMap =
      mapSet ir.ingressMap (ingressKey ingress) ingress := addIngressToMap_ingressMap ir ingress
  refine ⟨?_, ?_, ?_, ?_⟩
  · rw [hmap]
    exact mapGet_mapSet_self _ _ _
  · intro k hk
    rw [hmap]
    exact mapGet_mapSet_other _ _ _ _ hk
  · intro hstored k
    rw [hmap]
    by_cases hk : k = ingressKey ingress
    · rw [hk, mapGet_mapSet_self, hstored]
    · exact mapGet_mapSet_other _ _ _ _ hk
  · intro hroom
    refine ⟨_, signal_room _ hroom, rfl⟩

theorem addIngress_stores_and_signals_witness :
    routerWith1.reloadChannel < reloadChannelCap ∧
    ∃ s, routerWith1.addIngress (Obj.ingress ingress1) = Outcome.done s ∧
      s.reloadChannel = routerWith1.reloadChannel + 1 :=
  ⟨by decide, (addIngress_stores_and_signals routerWith1 ingress1).2.2.2 (by decide)⟩

/-- C7 fails as stated in a state whose reload channel is full. `fullRouter` is the
state of a new router after 1000 calls of `addIngress ingress1` with no receiver running.
There `ingress1` and `ingress1Changed` are not the same, yet `updateIngress` does not
return and the channel still holds 1000 signals; the send waits for a receiver. -/
theorem updateIngress_full_channel_adds_no_signal :
    (addRepeatedly ingress1 1000 NewIngressRouter).ingressMap = fullRouter.ingressMap ∧
    (addRepeatedly ingress1 1000 NewIngressRouter).reloadChannel = fullRouter.reloadChannel ∧
    areIngressesTheSame ingress1 ingress1Changed = false ∧
    (fullRouter.updateIngress (Obj.ingress ingress1) (Obj.ingress ingress1Changed)).isDone =
      false ∧
    (fullRouter.updateIngress (Obj.ingress ingress1)
      (Obj.ingress ingress1Changed)).state.reloadChannel = fullRouter.reloadChannel := by
  have h := addRepeatedly_succ ingress1 999 NewIngressRouter (by decide)
  refine ⟨?_, ?_, by decide, by decide, by decide⟩
  · rw [h.1]
    decide
  · rw [h.2]
    decide

/-- C7, amended. If `areIngressesTheSame oldRule newRule` then `updateIngress` returns
the router unchanged: the same store and the same pending signals. Otherwise it stores
`newRule` under the key of its namespace and name and leaves every other key unchanged,
in every state; and when the reload channel holds fewer than 1000 signals it returns
with exactly one signal added. -/
theorem updateIngress_effect (ir : ingressRouter) (oldRule newRule : Ingress) :
    (areIngressesTheSame oldRule newRule = true →
      ir.updateIngress (Obj.ingress oldRule) (Obj.ingress newRule) = Outcome.done ir) ∧
    (areIngressesTheSame oldRule newRule = false →
      mapGet (ir.updateIngress (Obj.ingress oldRule) (Obj.ingress newRule)).state.ingressMap
        (ingressKey newRule) = some newRule ∧
      (∀ k, k ≠ ingressKey newRule →
        mapGet (ir.updateIngress (Obj.ingress oldRule) (Obj.ingress newRule)).state.ingressMap k =
          mapGet ir.ingressMap k) ∧
      (ir.reloadChannel < reloadChannelCap →
        ∃ s, ir.updateIngress (Obj.ingress oldRule) (Obj.ingress newRule) = Outcome.done s ∧
          s.reloadChannel = ir.reloadChannel + 1)) := by
  constructor
  · intro hsame
    simp [ingressRouter.updateIngress, hsame]
  · intro hdiff
    have hcall : ir.updateIngress (Obj.ingress oldRule) (Obj.ingress newRule) =
        ir.addIngressToMap newRule := by
      simp [ingressRouter.updateIngress, hdiff]
    rw [hcall, addIngressToMap_ingressMap]
    refine ⟨mapGet_mapSet_self _ _ _, fun k hk => mapGet_mapSet_other _ _ _ _ hk, ?_⟩
    intro hroom
    exact ⟨_, signal_room _ hroom, rfl⟩

theorem updateIngress_effect_witness :
    areIngressesTheSame ingress1 ingress1 = true ∧
    routerWith1.updateIngress (Obj.ingress ingress1) (Obj.ingress ingress1) =
      Outcome.done routerWith1 ∧
    areIngressesTheSame ingress1 ingress1Changed = false ∧
    routerWith1.reloadChannel < reloadChannelCap ∧
    ∃ s, routerWith1.updateIngress (Obj.ingress ingress1) (Obj.ingress ingress1Changed) =
        Outcome.done s ∧ s.reloadChannel = routerWith1.reloadChannel + 1 :=
  ⟨by decide, (updateIngress_effect routerWith1 ingress1 ingress1).1 (by decide), by decide,
    by decide,
    ((updateIngress_effect routerWith1 ingress1 ingress1Changed).2 (by decide)).2.2
      (by decide)⟩

/-- C8 fails as stated. The store of a new router holds nothing at the identity of
`ingress1`, and `removeIngress` returns with the store still empty and one signal added
to the reload channel. And the store is read by key, not by identity: `routerWithSlashA`
holds no rule with the namespace and name of `ingressSlashB`, yet removing
`ingressSlashB` deletes the entry of `ingressSlashA`, stored under the same key. -/
theorem removeIngress_absent_still_signals :
    mapGet NewIngressRouter.ingressMap (ingressKey ingress1) = none ∧
    (NewIngressRouter.removeIngress (Obj.ingress ingress1)).isDone = true ∧
    (NewIngressRouter.removeIngress (Obj.ingress ingress1)).state.ingressMap =
      NewIngressRouter.ingressMap ∧
    (NewIngressRouter.removeIngress (Obj.ingress ingress1)).state.reloadChannel =
      NewIngressRouter.reloadChannel + 1 ∧
    (∀ e ∈ routerWithSlashA.ingressMap,
      ¬ (e.2.Namespace = ingressSlashB.Namespace ∧ e.2.Name = ingressSlashB.Name)) ∧
    routerWithSlashA.ingressMap = [(ingressKey ingressSlashA, ingressSlashA)] ∧
    (routerWithSlashA.removeIngress (Obj.ingress ingressSlashB)).state.ingressMap = [] := by
  decide

/-- C8, amended. `removeIngress` does not look whether anything is stored for the rule,
and it reads the store by the key `Namespace/Name`. In every state the store holds
nothing under the key of the rule afterwards and every other key is unchanged, so when
nothing was stored under that key the store is left as it was. That is the case when the
store is well formed, no stored rule has the namespace and name of the rule, and neither
the stored namespaces nor the rule's contain `/`. When the reload channel holds fewer
than 1000 signals the call returns with exactly one signal added, whether or not the key
was present. -/
theorem removeIngress_deletes_and_signals (ir : ingressRouter) (ingress : Ingress) :
    mapGet (ir.removeIngress (Obj.ingress ingress)).state.ingressMap (ingressKey ingress) =
      none ∧
    (∀ k, k ≠ ingressKey ingress →
      mapGet (ir.removeIngress (Obj.ingress ingress)).state.ingressMap k =
        mapGet ir.ingressMap k) ∧
    (mapGet ir.ingressMap (ingressKey ingress) = none →
      (ir.removeIngress (Obj.ingress ingress)).state.ingressMap = ir.ingressMap) ∧
    (ir.reloadChannel < reloadChannelCap →
      ∃ s, ir.removeIngress (Obj.ingress ingress) = Outcome.done s ∧
        s.reloadChannel = ir.reloadChannel + 1) ∧
    (ir.WF →
      (∀ e ∈ ir.ingressMap,
        ¬ (e.2.Namespace = ingress.Namespace ∧ e.2.Name = ingress.Name)) →
      (∀ e ∈ ir.ingressMap, '/' ∉ e.2.Namespace.data) → '/' ∉ ingress.Namespace.data →
      mapGet ir.ingressMap (ingressKey ingress) = none ∧
        (ir.removeIngress (Obj.ingress ingress)).state.ingressMap = ir.ingressMap) := by
  have hmap : (ir.removeIngress (Obj.ingress ingress)).state.ingressMap =
      mapDelete ir.ingressMap (ingressKey ingress) := removeIngressFromMap_ingressMap ir ingress
  refine ⟨?_, ?_, ?_, ?_, ?_⟩
  · rw [hmap]
    exact mapGet_mapDelete_self _ _
  · intro k hk
    rw [hmap]
    exact mapGet_mapDelete_other _ _ _ hk
  · intro habsent
    rw [hmap]
    exact mapDelete_absent _ _ habsent
  · intro hroom
    exact ⟨_, signal_room _ hroom, rfl⟩
  · intro hwf hident hstored hrule
    have habsent : mapGet ir.ingressMap (ingressKey ingress) = none := by
      unfold mapGet
      rw [List.lookup_eq_none_iff]
      intro e he
      have hne : ingressKey ingress ≠ e.1 := by
        intro hk
        rw [hwf.2 e he] at hk
        exact hident e he (ingressKey_inj e.2 ingress (Or.inl ⟨hstored e he, hrule⟩) hk.symm)
      simpa using hne
    refine ⟨habsent, ?_⟩
    rw [hmap]
    exact mapDelete_absent _ _ habsent

theorem removeIngress_deletes_and_signals_witness :
    mapGet NewIngressRouter.ingressMap (ingressKey ingress1) = none ∧
    (NewIngressRouter.removeIngress (Obj.ingress ingress1)).state.ingressMap =
      NewIngressRouter.ingressMap ∧
    NewIngressRouter.reloadChannel < reloadChannelCap ∧
    (∃ s, NewIngressRouter.removeIngress (Obj.ingress ingress1) = Outcome.done s ∧
      s.reloadChannel = NewIngressRouter.reloadChannel + 1) ∧
    routerWith1.WF ∧
    (∀ e ∈ routerWith1.ingressMap,
      ¬ (e.2.Namespace = ingress2.Namespace ∧ e.2.Name = ingress2.Name)) ∧
    (∀ e ∈ routerWith1.ingressMap, '/' ∉ e.2.Namespace.data) ∧
    '/' ∉ ingress2.Namespace.data ∧
    (routerWith1.removeIngress (Obj.ingress ingress2)).state.ingressMap =
      routerWith1.ingressMap :=
  ⟨by decide, (removeIngress_deletes_and_signals NewIngressRouter ingress1).2.2.1 (by decide),
    by decide,
    (removeIngress_deletes_and_signals NewIngressRouter ingress1).2.2.2.1 (by decide),
    WF_addIngress _ _ WF_new, by decide, by decide, by decide,
    ((removeIngress_deletes_and_signals routerWith1 ingress2).2.2.2.2
      (WF_addIngress _ _ WF_new) (by decide) (by decide) (by decide)).2⟩

/-! ## Removal and replacement, seen through a rebuild -/

/-- C9 fails as stated: the store holds `ingress1` and `ingress3`, the request
`foo.com/path1` matches a route of `ingress1` on the table built before the removal, and
after `removeIngress ingress1` and a rebuild the same request is found again, now on the
route of `ingress3`. -/
theorem removeIngress_other_rule_still_matches :
    mapGet routerWith13.ingressMap (ingressKey ingress1) = some ingress1 ∧
    routerWith13.rangeOrder [ingress1, ingress3] ∧
    (routerWith13.updateRouteMap sortSlice [ingress1, ingress3]).MatchRequest requestFooPath1 =
      ("ns1", "name1", "svc11.ns1.svc:80", true) ∧
    (((routerWith13.updateRouteMap sortSlice [ingress1, ingress3]).removeIngress
      (Obj.ingress ingress1)).state.rangeOrder [ingress3]) ∧
    ((((routerWith13.updateRouteMap sortSlice [ingress1, ingress3]).removeIngress
      (Obj.ingress ingress1)).state.updateRouteMap sortSlice [ingress3]).MatchRequest
        requestFooPath1 = ("", "", "svc1..svc:80", true)) := by
  decide

/-- C9, amended. In every router state whose store is well formed, after
`removeIngress r` and a rebuild (any visiting order, any `sort.Slice`): no request is
answered with the namespace and name of `r`; a request is not-found exactly when no rule
remaining in the store, that is stored under another key than that of `r`, declares
under the request's hostname a prefix of the request path; a request that is found is
answered with the namespace and name of such a remaining rule and the backend address of
a path which that rule declares under the request's hostname and which is a prefix of the
request path; in particular every request is not-found when the store held no rule under
another key than that of `r`. -/
theorem removeIngress_then_updateRouteMap (sortSlice : List routeMapEntry → List routeMapEntry)
    (hs : SortSliceSpec sortSlice) (ir : ingressRouter) (hwf : ir.WF) (r : Ingress)
    (order : List Ingress)
    (hord : (ir.removeIngress (Obj.ingress r)).state.rangeOrder order) (req : Request) :
    (∀ ns name addr,
      ((ir.removeIngress (Obj.ingress r)).state.updateRouteMap sortSlice order).MatchRequest req =
        (ns, name, addr, true) → ¬ (ns = r.Namespace ∧ name = r.Name)) ∧
    (((ir.removeIngress (Obj.ingress r)).state.updateRouteMap sortSlice order).MatchRequest req =
        ("", "", "", false) ↔
      ¬ ∃ e ∈ ir.ingressMap, e.1 ≠ ingressKey r ∧
        ∃ path, Declares e.2 (GetHostname req) path ∧ path.Path.data <+: req.URLPath.data) ∧
    ((∀ e ∈ ir.ingressMap, e.1 = ingressKey r) →
      ((ir.removeIngress (Obj.ingress r)).state.updateRouteMap sortSlice order).MatchRequest req =
        ("", "", "", false)) ∧
    (∀ ns name addr,
      ((ir.removeIngress (Obj.ingress r)).state.updateRouteMap sortSlice order).MatchRequest req =
        (ns, name, addr, true) →
      ∃ e ∈ ir.ingressMap, e.1 ≠ ingressKey r ∧ e.2.Namespace = ns ∧ e.2.Name = name ∧
        ∃ path, Declares e.2 (GetHostname req) path ∧ path.Path.data <+: req.URLPath.data ∧
          addr = path.Backend.ServiceName ++ "." ++ ns ++ ".svc:" ++
            path.Backend.ServicePort.String) := by
  have hmap : (ir.removeIngress (Obj.ingress r)).state.ingressMap =
      mapDelete ir.ingressMap (ingressKey r) := removeIngressFromMap_ingressMap ir r
  have hmem : ∀ ingress, ingress ∈ order ↔
      ∃ e ∈ ir.ingressMap, e.1 ≠ ingressKey r ∧ e.2 = ingress := by
    intro ingress
    rw [mem_rangeOrder _ order hord, hmap]
    constructor
    · rintro ⟨e, he, h2⟩
      exact ⟨e, ((mem_mapDelete _ _ _).1 he).1, ((mem_mapDelete _ _ _).1 he).2, h2⟩
    · rintro ⟨e, he, h1, h2⟩
      exact ⟨e, (mem_mapDelete _ _ _).2 ⟨he, h1⟩, h2⟩
  have hiff : ((ir.removeIngress (Obj.ingress r)).state.updateRouteMap sortSlice
        order).MatchRequest req = ("", "", "", false) ↔
      ¬ ∃ e ∈ ir.ingressMap, e.1 ≠ ingressKey r ∧
        ∃ path, Declares e.2 (GetHostname req) path ∧ path.Path.data <+: req.URLPath.data := by
    rw [MatchRequest_updateRouteMap, match_eq_notfound_iff, ← not_iff_not, not_not,
      ← ne_eq, Option.ne_none_iff_exists']
    rw [matchEntry_build_some_iff sortSlice hs]
    constructor
    · rintro ⟨ingress, hi, path, hd, hp⟩
      obtain ⟨e, he, h1, h2⟩ := (hmem ingress).1 hi
      subst h2
      exact ⟨e, he, h1, path, hd, hp⟩
    · rintro ⟨e, he, h1, path, hd, hp⟩
      exact ⟨e.2, (hmem e.2).2 ⟨e, he, h1, rfl⟩, path, hd, hp⟩
  refine ⟨?_, hiff, ?_, ?_⟩
  · intro ns name addr hres
    rw [MatchRequest_updateRouteMap] at hres
    obtain ⟨entry, hm, h1, h2, _⟩ := match_found_entry _ _ _ _ _ _ hres
    have hin := ((mem_hostMap_buildRouteMap sortSlice hs order _ entry).1
      (matchEntry_some _ _ _ hm).1).1
    obtain ⟨e, he, hk, h3⟩ := (hmem entry.ingress).1 hin
    rintro ⟨hns, hname⟩
    apply hk
    rw [hwf.2 e he, h3]
    exact ingressKey_eq_of_identity _ _ (h1.trans hns) (h2.trans hname)
  · intro honly
    rw [hiff]
    rintro ⟨e, he, h1, _⟩
    exact h1 (honly e he)
  · intro ns name addr hres
    rw [MatchRequest_updateRouteMap] at hres
    obtain ⟨entry, hm, h1, h2, h3⟩ := match_found_entry _ _ _ _ _ _ hres
    obtain ⟨hin, hd⟩ := (mem_hostMap_buildRouteMap sortSlice hs order _ entry).1
      (matchEntry_some _ _ _ hm).1
    obtain ⟨e, he, hk, h4⟩ := (hmem entry.ingress).1 hin
    refine ⟨e, he, hk, by rw [h4, h1], by rw [h4, h2], entry.path, h4 ▸ hd,
      (HasPrefix_iff _ _).1 (matchEntry_some _ _ _ hm).2, ?_⟩
    rw [← h3, ← h1]
    rfl

theorem removeIngress_then_updateRouteMap_witness :
    SortSliceSpec sortSlice ∧ routerWith1.WF ∧
    (routerWith1.removeIngress (Obj.ingress ingress1)).state.rangeOrder [] ∧
    (∀ e ∈ routerWith1.ingressMap, e.1 = ingressKey ingress1) ∧
    ((routerWith1.removeIngress (Obj.ingress ingress1)).state.updateRouteMap sortSlice
      []).MatchRequest requestFooPath1 = ("", "", "", false) ∧
    routerWith13.WF ∧
    (routerWith13.removeIngress (Obj.ingress ingress1)).state.rangeOrder [ingress3] ∧
    ((routerWith13.removeIngress (Obj.ingress ingress1)).state.updateRouteMap sortSlice
      [ingress3]).MatchRequest requestFooPath1 = ("", "", "svc1..svc:80", true) ∧
    (∃ e ∈ routerWith13.ingressMap, e.1 ≠ ingressKey ingress1 ∧ e.2.Namespace = "" ∧
      e.2.Name = "" ∧
      ∃ path, Declares e.2 (GetHostname requestFooPath1) path ∧
        path.Path.data <+: requestFooPath1.URLPath.data ∧
        "svc1..svc:80" = path.Backend.ServiceName ++ "." ++ "" ++ ".svc:" ++
          path.Backend.ServicePort.String) :=
  ⟨sortSlice_spec, WF_addIngress _ _ WF_new, by decide, by decide,
    (removeIngress_then_updateRouteMap sortSlice sortSlice_spec routerWith1
      (WF_addIngress _ _ WF_new) ingress1 [] (by decide) requestFooPath1).2.2.1 (by decide),
    WF_addIngress _ _ (WF_addIngress _ _ WF_new), by decide, by decide,
    (removeIngress_then_updateRouteMap sortSlice sortSlice_spec routerWith13
      (WF_addIngress _ _ (WF_addIngress _ _ WF_new)) ingress1 [ingress3] (by decide)
      requestFooPath1).2.2.2 "" "" "svc1..svc:80" (by decide)⟩

/-- C10 fails as stated. The store of `routerWithSlashB` is well formed and holds
`ingressSlashB` (namespace `a`, name `b/c`). After `addIngress ingressSlashA` twice
(namespace `a/b`, name `c`, another identity with the same key `a/b/c`) the entry of
`ingressSlashB` is replaced: no stored rule has its namespace and name any more. -/
theorem addIngress_twice_replaces_colliding_rule :
    routerWithSlashB.WF ∧
    ¬ (ingressSlashB.Namespace = ingressSlashA.Namespace ∧
      ingressSlashB.Name = ingressSlashA.Name) ∧
    mapGet routerWithSlashB.ingressMap (ingressKey ingressSlashB) = some ingressSlashB ∧
    mapGet ((routerWithSlashB.addIngress (Obj.ingress ingressSlashA)).state.addIngress
      (Obj.ingress ingressSlashA)).state.ingressMap (ingressKey ingressSlashB) =
        some ingressSlashA ∧
    ((routerWithSlashB.addIngress (Obj.ingress ingressSlashA)).state.addIngress
      (Obj.ingress ingressSlashA)).state.ingressMap.filter
        (fun e => e.2.Namespace = ingressSlashB.Namespace ∧ e.2.Name = ingressSlashB.Name) =
      [] :=
  ⟨WF_addIngress _ _ WF_new, by decide, by decide, by decide, by decide⟩

/-- C10, amended: upsert replaces at the store key. In every router state whose store is
well formed, for two rules with the same namespace and name, after `addIngress r1` and
then `addIngress r2`: the store has exactly one entry under their key and exactly one
entry whose rule carries that namespace and name, and it is `r2`; every other key holds
what it held before, so the entry of a rule `c` with another namespace or name is
unchanged when the namespaces of `c` and `r2`, or their names, contain no `/`; and after
a rebuild every match result that carries that namespace and name comes from a path that
`r2` declares, with the backend address of that path. -/
theorem addIngress_twice_replaces (sortSlice : List routeMapEntry → List routeMapEntry)
    (hs : SortSliceSpec sortSlice) (ir : ingressRouter) (hwf : ir.WF) (r1 r2 : Ingress)
    (hns : r1.Namespace = r2.Namespace) (hname : r1.Name = r2.Name) (order : List Ingress)
    (hord : ((ir.addIngress (Obj.ingress r1)).state.addIngress
      (Obj.ingress r2)).state.rangeOrder order) :
    ((ir.addIngress (Obj.ingress r1)).state.addIngress (Obj.ingress r2)).state.ingressMap.filter
        (fun e => e.1 = ingressKey r2) = [(ingressKey r2, r2)] ∧
    ((ir.addIngress (Obj.ingress r1)).state.addIngress (Obj.ingress r2)).state.ingressMap.filter
        (fun e => e.2.Namespace = r2.Namespace ∧ e.2.Name = r2.Name) = [(ingressKey r2, r2)] ∧
    (∀ k, k ≠ ingressKey r2 →
      mapGet ((ir.addIngress (Obj.ingress r1)).state.addIngress
        (Obj.ingress r2)).state.ingressMap k = mapGet ir.ingressMap k) ∧
    (∀ req ns name addr,
      (((ir.addIngress (Obj.ingress r1)).state.addIngress
        (Obj.ingress r2)).state.updateRouteMap sortSlice order).MatchRequest req =
          (ns, name, addr, true) →
      ns = r2.Namespace → name = r2.Name →
      ∃ path, Declares r2 (GetHostname req) path ∧ path.Path.data <+: req.URLPath.data ∧
        addr = path.Backend.ServiceName ++ "." ++ r2.Namespace ++ ".svc:" ++
          path.Backend.ServicePort.String) ∧
    (∀ c : Ingress,
      (('/' ∉ c.Namespace.data ∧ '/' ∉ r2.Namespace.data) ∨
        ('/' ∉ c.Name.data ∧ '/' ∉ r2.Name.data)) →
      ¬ (c.Namespace = r2.Namespace ∧ c.Name = r2.Name) →
      mapGet ((ir.addIngress (Obj.ingress r1)).state.addIngress
        (Obj.ingress r2)).state.ingressMap (ingressKey c) =
          mapGet ir.ingressMap (ingressKey c)) := by
  have hkey : ingressKey r1 = ingressKey r2 := ingressKey_eq_of_identity _ _ hns hname
  have hwf2 : ((ir.addIngress (Obj.ingress r1)).state.addIngress (Obj.ingress r2)).state.WF :=
    WF_addIngress _ _ (WF_addIngress _ _ hwf)
  have hmap1 : (ir.addIngress (Obj.ingress r1)).state.ingressMap =
      mapSet ir.ingressMap (ingressKey r1) r1 := addIngressToMap_ingressMap ir r1
  have hmap : ((ir.addIngress (Obj.ingress r1)).state.addIngress (Obj.ingress r2)).state.ingressMap =
      mapSet (ir.addIngress (Obj.ingress r1)).state.ingressMap (ingressKey r2) r2 :=
    addIngressToMap_ingressMap _ r2
  have hfilter := filter_key_mapSet (ir.addIngress (Obj.ingress r1)).state.ingressMap
    (ingressKey r2) r2
  rw [← hmap] at hfilter
  have hident : ∀ e ∈ ((ir.addIngress (Obj.ingress r1)).state.addIngress
      (Obj.ingress r2)).state.ingressMap,
      (e.2.Namespace = r2.Namespace ∧ e.2.Name = r2.Name) ↔ e.1 = ingressKey r2 := by
    intro e he
    constructor
    · rintro ⟨h1, h2⟩
      rw [hwf2.2 e he]
      exact ingressKey_eq_of_identity _ _ h1 h2
    · intro hk
      have : e ∈ [(ingressKey r2, r2)] := by
        rw [← hfilter, List.mem_filter]
        exact ⟨he, by simpa using hk⟩
      rw [List.mem_singleton] at this
      subst this
      exact ⟨rfl, rfl⟩
  have hother : ∀ k, k ≠ ingressKey r2 →
      mapGet ((ir.addIngress (Obj.ingress r1)).state.addIngress
        (Obj.ingress r2)).state.ingressMap k = mapGet ir.ingressMap k := by
    intro k hk
    rw [hmap, mapGet_mapSet_other _ _ _ _ hk, hmap1, mapGet_mapSet_other _ _ _ _ (hkey ▸ hk)]
  refine ⟨hfilter, ?_, hother, ?_, ?_⟩
  rotate_left 2
  · intro c hslash hne
    exact hother _ (fun hk => hne (ingressKey_inj c r2 hslash hk))
  · rw [← hfilter]
    apply List.filter_congr
    intro e he
    have := hident e he
    by_cases hk : e.1 = ingressKey r2
    · simp [hk, this.2 hk]
    · have hn : ¬ (e.2.Namespace = r2.Namespace ∧ e.2.Name = r2.Name) := fun h => hk (this.1 h)
      simp [hk, hn]
  · intro req ns name addr hres h1 h2
    rw [MatchRequest_updateRouteMap] at hres
    obtain ⟨entry, hm, e1, e2, e3⟩ := match_found_entry _ _ _ _ _ _ hres
    obtain ⟨hin, hd⟩ := (mem_hostMap_buildRouteMap sortSlice hs order _ entry).1
      (matchEntry_some _ _ _ hm).1
    obtain ⟨e, he, h3⟩ := (mem_rangeOrder _ order hord entry.ingress).1 hin
    have hk : e.1 = ingressKey r2 :=
      (hident e he).1 ⟨by rw [h3, e1, h1], by rw [h3, e2, h2]⟩
    have hmem : e ∈ [(ingressKey r2, r2)] := by
      rw [← hfilter, List.mem_filter]
      exact ⟨he, by simpa using hk⟩
    rw [List.mem_singleton] at hmem
    have hr2 : entry.ingress = r2 := by rw [← h3, hmem]
    refine ⟨entry.path, hr2 ▸ hd, (HasPrefix_iff _ _).1 (matchEntry_some _ _ _ hm).2, ?_⟩
    rw [← e3, ← hr2]
    rfl

theorem addIngress_twice_replaces_witness :
    SortSliceSpec sortSlice ∧ routerWith13.WF ∧
    ingress1.Namespace = ingress1Changed.Namespace ∧ ingress1.Name = ingress1Changed.Name ∧
    ((routerWith13.addIngress (Obj.ingress ingress1)).state.addIngress
      (Obj.ingress ingress1Changed)).state.rangeOrder [ingress3, ingress1Changed] ∧
    ((routerWith13.addIngress (Obj.ingress ingress1)).state.addIngress
      (Obj.ingress ingress1Changed)).state.ingressMap.filter
        (fun e => e.2.Namespace = ingress1Changed.Namespace ∧
          e.2.Name = ingress1Changed.Name) = [(ingressKey ingress1Changed, ingress1Changed)] ∧
    (((routerWith13.addIngress (Obj.ingress ingress1)).state.addIngress
      (Obj.ingress ingress1Changed)).state.updateRouteMap sortSlice
        [ingress3, ingress1Changed]).MatchRequest
          { HeaderHost := "", Host := "bar.com", URLPath := "/subpath" } =
      ("ns1", "name1", "svc12.ns1.svc:80", true) ∧
    mapGet ((routerWith13.addIngress (Obj.ingress ingress1)).state.addIngress
      (Obj.ingress ingress1Changed)).state.ingressMap (ingressKey ingress3) =
        mapGet routerWith13.ingressMap (ingressKey ingress3) :=
  ⟨sortSlice_spec, WF_addIngress _ _ (WF_addIngress _ _ WF_new), rfl, rfl, by decide,
    (addIngress_twice_replaces sortSlice sortSlice_spec routerWith13
      (WF_addIngress _ _ (WF_addIngress _ _ WF_new)) ingress1
      ingress1Changed rfl rfl [ingress3, ingress1Changed] (by decide)).2.1,
    by decide,
    (addIngress_twice_replaces sortSlice sortSlice_spec routerWith13
      (WF_addIngress _ _ (WF_addIngress _ _ WF_new)) ingress1
      ingress1Changed rfl rfl [ingress3, ingress1Changed] (by decide)).2.2.2.2 ingress3
        (by decide) (by decide)⟩

/-! ## `areIngressesTheSame` as a relation -/

/-- C20, `areIngressesTheSame` is an equivalence relation on rules: it is reflexive (every
rule is the same as itself, also one with rule entries without HTTP section or with empty
path lists), symmetric (the two argument orders give the same Boolean) and transitive. -/
theorem areIngressesTheSame_equivalence :
    (∀ a, areIngressesTheSame a a = true) ∧
    (∀ a b, areIngressesTheSame a b = areIngressesTheSame b a) ∧
    (∀ a b c, areIngressesTheSame a b = true → areIngressesTheSame b c = true →
      areIngressesTheSame a c = true) := by
  refine ⟨?_, ?_, ?_⟩
  · intro a
    rw [areIngressesTheSame_iff]
    exact forall₂_ruleSame_refl _
  · intro a b
    cases hab : areIngressesTheSame a b with
    | true =>
      symm
      rw [areIngressesTheSame_iff] at hab ⊢
      exact forall₂_ruleSame_symm _ _ hab
    | false =>
      cases hba : areIngressesTheSame b a with
      | false => rfl
      | true =>
        rw [areIngressesTheSame_iff] at hba
        have := (areIngressesTheSame_iff a b).2 (forall₂_ruleSame_symm _ _ hba)
        rw [hab] at this
        cases this
  · intro a b c hab hbc
    rw [areIngressesTheSame_iff] at hab hbc ⊢
    exact forall₂_ruleSame_trans _ _ _ hab hbc

theorem areIngressesTheSame_equivalence_witness :
    areIngressesTheSame ingressPlainA ingressPlainB = true ∧
    areIngressesTheSame ingressPlainB ingressPlainA = true ∧
    areIngressesTheSame ingressPlainA ingressPlainA = true ∧
    areIngressesTheSame ingress1 ingress1Changed = areIngressesTheSame ingress1Changed ingress1 :=
  ⟨by decide, by decide,
    areIngressesTheSame_equivalence.2.2 ingressPlainA ingressPlainB ingressPlainA
      (by decide) (by decide),
    areIngressesTheSame_equivalence.2.1 ingress1 ingress1Changed⟩

/-! ## Malformed payloads, readiness, hostname -/

/-- C13, malformed event payload. In every router state, `addIngress` and `removeIngress`
called with an object that is not an `Ingress`, and `updateIngress` called with such an
object as old or as new argument (whatever the other argument is), return with the
router unchanged: the same rule store, the same pending signals, the same table. -/
theorem handlers_discard_other_objects (ir : ingressRouter) (obj : Obj) :
    ir.addIngress Obj.other = Outcome.done ir ∧
    ir.removeIngress Obj.other = Outcome.done ir ∧
    ir.updateIngress Obj.other obj = Outcome.done ir ∧
    ir.updateIngress obj Obj.other = Outcome.done ir := by
  refine ⟨rfl, rfl, rfl, ?_⟩
  cases obj <;> rfl

/-- C14, match before readiness. A router on which no table has been published answers
every request with four zero values, whatever its rule store holds; a new router is in
that case, and no event handler publishes a table. -/
theorem MatchRequest_before_first_table (ir : ingressRouter) (req : Request) :
    (ir.getRouteMap.isNone = true → ir.MatchRequest req = ("", "", "", false)) ∧
    NewIngressRouter.getRouteMap.isNone = true ∧
    (∀ obj, (ir.addIngress obj).state.getRouteMap.isNone = ir.getRouteMap.isNone) ∧
    (∀ oldObj newObj,
      (ir.updateIngress oldObj newObj).state.getRouteMap.isNone = ir.getRouteMap.isNone) ∧
    (∀ obj, (ir.removeIngress obj).state.getRouteMap.isNone = ir.getRouteMap.isNone) := by
  have hsig : ∀ s : ingressRouter, s.signal.state.routemap = s.routemap := by
    intro s
    unfold ingressRouter.signal
    split <;> rfl
  refine ⟨?_, rfl, ?_, ?_, ?_⟩
  · intro hnone
    unfold ingressRouter.MatchRequest
    cases hrm : ir.getRouteMap with
    | none => rfl
    | some rm =>
      rw [hrm] at hnone
      cases hnone
  · intro obj
    cases obj with
    | other => rfl
    | ingress ig =>
      simp only [ingressRouter.addIngress, ingressRouter.addIngressToMap,
        ingressRouter.getRouteMap, hsig]
  · intro oldObj newObj
    cases oldObj with
    | other => rfl
    | ingress o =>
      cases newObj with
      | other => rfl
      | ingress n =>
        simp only [ingressRouter.updateIngress]
        split
        · rfl
        · simp only [ingressRouter.addIngressToMap, ingressRouter.getRouteMap, hsig]
  · intro obj
    cases obj with
    | other => rfl
    | ingress ig =>
      simp only [ingressRouter.removeIngress, ingressRouter.removeIngressFromMap,
        ingressRouter.getRouteMap, hsig]

theorem MatchRequest_before_first_table_witness :
    testRouter.getRouteMap.isNone = true ∧
    testRouter.MatchRequest requestFooPath1 = ("", "", "", false) :=
  ⟨by decide, (MatchRequest_before_first_table testRouter requestFooPath1).1 (by decide)⟩

/-- C15, hostname normalisation. `GetHostname` reads the `Host` header when it is not
empty and the request's `Host` field otherwise. For a hostname `h` without `:` and any
port string `p`, the raw value `h:p` gives `h`, and the raw value `h` gives `h`; the
result never contains `:`. -/
theorem GetHostname_strips_port (r : Request) (h p : String) (hc : ':' ∉ h.data) :
    ((if r.HeaderHost = "" then r.Host else r.HeaderHost) = h ++ ":" ++ p →
      GetHostname r = h) ∧
    ((if r.HeaderHost = "" then r.Host else r.HeaderHost) = h → GetHostname r = h) ∧
    GetHostname { HeaderHost := "", Host := h ++ ":" ++ p, URLPath := r.URLPath } = h ∧
    GetHostname { HeaderHost := h ++ ":" ++ p, Host := r.Host, URLPath := r.URLPath } = h ∧
    GetHostname { HeaderHost := "", Host := h, URLPath := r.URLPath } = h ∧
    ':' ∉ (GetHostname r).data := by
  refine ⟨GetHostname_strip r h p hc, GetHostname_plain r h hc, ?_, ?_, ?_,
    GetHostname_no_colon r⟩
  · exact GetHostname_strip _ h p hc (by simp)
  · apply GetHostname_strip _ h p hc
    have hne : h ++ ":" ++ p ≠ "" := by
      intro he
      have := congrArg String.length he
      simp only [String.length_append] at this
      have h1 : (":" : String).length = 1 := by decide
      have h0 : ("" : String).length = 0 := by decide
      omega
    simp only [hne, if_false]
  · exact GetHostname_plain _ h hc (by simp)

theorem GetHostname_strips_port_witness :
    ':' ∉ ("foo.com" : String).data ∧
    GetHostname { HeaderHost := "", Host := "foo.com" ++ ":" ++ "8080", URLPath := "/path1" } =
      "foo.com" ∧
    GetHostname requestFooPath1 = "foo.com" :=
  ⟨by decide, (GetHostname_strips_port requestFooPath1 "foo.com" "8080" (by decide)).2.2.1,
    (GetHostname_strips_port requestFooPath1 "foo.com" "8080" (by decide)).2.1 (by decide)⟩

/-! ## The store key -/

/-- C11 fails as stated: `ingressSlashA` (namespace `a/b`, name `c`) and `ingressSlashB`
(namespace `a`, name `b/c`) differ in namespace and in name and have the same store key
`a/b/c`, so upserting the second replaces the stored entry of the first and removing the
second removes it. -/
theorem ingressKey_collision :
    ¬ (ingressSlashA.Namespace = ingressSlashB.Namespace ∧
      ingressSlashA.Name = ingressSlashB.Name) ∧
    ingressKey ingressSlashA = ingressKey ingressSlashB ∧
    mapGet (NewIngressRouter.addIngress (Obj.ingress ingressSlashA)).state.ingressMap
      (ingressKey ingressSlashA) = some ingressSlashA ∧
    mapGet ((NewIngressRouter.addIngress (Obj.ingress ingressSlashA)).state.addIngress
      (Obj.ingress ingressSlashB)).state.ingressMap (ingressKey ingressSlashA) =
        some ingressSlashB ∧
    mapGet ((NewIngressRouter.addIngress (Obj.ingress ingressSlashA)).state.removeIngress
      (Obj.ingress ingressSlashB)).state.ingressMap (ingressKey ingressSlashA) = none := by
  decide

/-- C11, amended. For two rules whose namespaces both contain no `/`, or whose names
both contain no `/`, and whose (namespace, name) pairs differ, the store keys differ, and
in every router state upserting, updating to, or removing the one leaves what is stored
under the key of the other unchanged. -/
theorem store_keyed_by_identity (ir : ingressRouter) (a b : Ingress)
    (hslash : ('/' ∉ a.Namespace.data ∧ '/' ∉ b.Namespace.data) ∨
      ('/' ∉ a.Name.data ∧ '/' ∉ b.Name.data))
    (hne : ¬ (a.Namespace = b.Namespace ∧ a.Name = b.Name)) :
    ingressKey a ≠ ingressKey b ∧
    mapGet (ir.addIngress (Obj.ingress a)).state.ingressMap (ingressKey b) =
      mapGet ir.ingressMap (ingressKey b) ∧
    mapGet (ir.removeIngress (Obj.ingress a)).state.ingressMap (ingressKey b) =
      mapGet ir.ingressMap (ingressKey b) ∧
    (∀ oldRule, mapGet (ir.updateIngress (Obj.ingress oldRule)
      (Obj.ingress a)).state.ingressMap (ingressKey b) = mapGet ir.ingressMap (ingressKey b)) := by
  have hk : ingressKey a ≠ ingressKey b := fun h => hne (ingressKey_inj a b hslash h)
  have hk' : ingressKey b ≠ ingressKey a := fun h => hk h.symm
  refine ⟨hk, ?_, ?_, ?_⟩
  · show mapGet (ir.addIngressToMap a).state.ingressMap _ = _
    rw [addIngressToMap_ingressMap]
    exact mapGet_mapSet_other _ _ _ _ hk'
  · show mapGet (ir.removeIngressFromMap a).state.ingressMap _ = _
    rw [removeIngressFromMap_ingressMap]
    exact mapGet_mapDelete_other _ _ _ hk'
  · intro oldRule
    simp only [ingressRouter.updateIngress]
    split
    · rfl
    · rw [addIngressToMap_ingressMap]
      exact mapGet_mapSet_other _ _ _ _ hk'

theorem store_keyed_by_identity_witness :
    (('/' ∉ ingress2.Namespace.data ∧ '/' ∉ ingress1.Namespace.data) ∨
      ('/' ∉ ingress2.Name.data ∧ '/' ∉ ingress1.Name.data)) ∧
    ¬ (ingress2.Namespace = ingress1.Namespace ∧ ingress2.Name = ingress1.Name) ∧
    ingressKey ingress2 ≠ ingressKey ingress1 ∧
    mapGet (routerWith1.removeIngress (Obj.ingress ingress2)).state.ingressMap
      (ingressKey ingress1) = mapGet routerWith1.ingressMap (ingressKey ingress1) :=
  ⟨by decide, by decide,
    (store_keyed_by_identity routerWith1 ingress2 ingress1 (by decide) (by decide)).1,
    (store_keyed_by_identity routerWith1 ingress2 ingress1 (by decide) (by decide)).2.2.1⟩

/-! ## The published table -/

/-- C12, published-table ordering invariant. In every router state reachable from
`NewIngressRouter` by `addIngress`, `updateIngress`, `removeIngress` and
`updateRouteMap`, either no table is published or every bucket of the published table is
ordered by non-increasing path length: for positions `i < j` of a bucket, the path at
`j` is not longer than the path at `i`. -/
theorem published_table_sorted (sortSlice : List routeMapEntry → List routeMapEntry)
    (hs : SortSliceSpec sortSlice) (ir : ingressRouter) (hreach : Reachable sortSlice ir) :
    ir.getRouteMap.isNone = true ∨
    ∃ rm, ir.getRouteMap = some rm ∧
      ∀ host i j (hij : i < j) (hj : j < (rm.hostMap host).length),
        ((rm.hostMap host).get ⟨j, hj⟩).path.Path.length ≤
          ((rm.hostMap host).get ⟨i, Nat.lt_trans hij hj⟩).path.Path.length := by
  cases hrm : ir.getRouteMap with
  | none => exact Or.inl rfl
  | some rm =>
    refine Or.inr ⟨rm, rfl, ?_⟩
    intro host i j hij hj
    have hsorted := Reachable.sorted sortSlice hs ir hreach rm hrm host
    have := (List.pairwise_iff_get.1 hsorted) ⟨i, Nat.lt_trans hij hj⟩ ⟨j, hj⟩ hij
    unfold pathLess at this
    omega

theorem published_table_sorted_witness :
    SortSliceSpec sortSlice ∧
    Reachable sortSlice (testRouter.updateRouteMap sortSlice [ingress3, ingress1, ingress2]) ∧
    ((testRouter.updateRouteMap sortSlice [ingress3, ingress1, ingress2]).getRouteMap.isNone =
        true ∨
      ∃ rm, (testRouter.updateRouteMap sortSlice [ingress3, ingress1, ingress2]).getRouteMap =
          some rm ∧
        ∀ host i j (hij : i < j) (hj : j < (rm.hostMap host).length),
          ((rm.hostMap host).get ⟨j, hj⟩).path.Path.length ≤
            ((rm.hostMap host).get ⟨i, Nat.lt_trans hij hj⟩).path.Path.length) :=
  have hreach : Reachable sortSlice
      (testRouter.updateRouteMap sortSlice [ingress3, ingress1, ingress2]) :=
    Reachable.rebuild _ _
      (Reachable.add _ _ (Reachable.add _ _ (Reachable.add _ _ Reachable.init)))
      (by decide)
  ⟨sortSlice_spec, hreach, published_table_sorted sortSlice sortSlice_spec _ hreach⟩

/-! ## The signal on a full channel -/

/-- C16 fails as stated: on `fullRouter`, whose reload channel holds 1000 signals, with
no receiver, `addIngress` and `removeIngress` do not return; the store is already
written and the channel still holds 1000 signals, the signal is not dropped. -/
theorem handlers_park_on_full_channel :
    fullRouter.reloadChannel = reloadChannelCap ∧
    (fullRouter.addIngress (Obj.ingress ingress2)).isDone = false ∧
    mapGet (fullRouter.addIngress (Obj.ingress ingress2)).state.ingressMap
      (ingressKey ingress2) = some ingress2 ∧
    (fullRouter.addIngress (Obj.ingress ingress2)).state.reloadChannel = reloadChannelCap ∧
    (fullRouter.removeIngress (Obj.ingress ingress1)).isDone = false ∧
    mapGet (fullRouter.removeIngress (Obj.ingress ingress1)).state.ingressMap
      (ingressKey ingress1) = none := by
  decide

/-- C16, amended. A producer's change signal is a plain send on the channel of capacity
1000. When the channel holds fewer than 1000 signals, `addIngress`, `updateIngress` and
`removeIngress` return. When it is full, `addIngress`, `removeIngress` and an
`updateIngress` between two rules that are not the same are parked at the send, after
the store has been written, and the channel is left as it was: nothing is dropped. An
`updateIngress` between two rules that are the same sends nothing and returns. -/
theorem handlers_return_iff_room (ir : ingressRouter) (ingress oldRule : Ingress) :
    (ir.reloadChannel < reloadChannelCap →
      (ir.addIngress (Obj.ingress ingress)).isDone = true ∧
      (ir.removeIngress (Obj.ingress ingress)).isDone = true ∧
      (ir.updateIngress (Obj.ingress oldRule) (Obj.ingress ingress)).isDone = true) ∧
    (¬ ir.reloadChannel < reloadChannelCap →
      (ir.addIngress (Obj.ingress ingress)).isDone = false ∧
      (ir.addIngress (Obj.ingress ingress)).state.reloadChannel = ir.reloadChannel ∧
      (ir.addIngress (Obj.ingress ingress)).state.ingressMap =
        mapSet ir.ingressMap (ingressKey ingress) ingress ∧
      (ir.removeIngress (Obj.ingress ingress)).isDone = false ∧
      (ir.removeIngress (Obj.ingress ingress)).state.reloadChannel = ir.reloadChannel ∧
      (ir.removeIngress (Obj.ingress ingress)).state.ingressMap =
        mapDelete ir.ingressMap (ingressKey ingress) ∧
      (areIngressesTheSame oldRule ingress = false →
        (ir.updateIngress (Obj.ingress oldRule) (Obj.ingress ingress)).isDone = false)) ∧
    (areIngressesTheSame oldRule ingress = true →
      ir.updateIngress (Obj.ingress oldRule) (Obj.ingress ingress) = Outcome.done ir) := by
  refine ⟨?_, ?_, ?_⟩
  · intro hroom
    refine ⟨?_, ?_, ?_⟩
    · simp only [ingressRouter.addIngress, ingressRouter.addIngressToMap, signal_isDone]
      exact decide_eq_true hroom
    · simp only [ingressRouter.removeIngress, ingressRouter.removeIngressFromMap, signal_isDone]
      exact decide_eq_true hroom
    · simp only [ingressRouter.updateIngress]
      split
      · rfl
      · simp only [ingressRouter.addIngressToMap, signal_isDone]
        exact decide_eq_true hroom
  · intro hfull
    refine ⟨?_, ?_, addIngressToMap_ingressMap ir ingress, ?_, ?_,
      removeIngressFromMap_ingressMap ir ingress, ?_⟩
    · simp only [ingressRouter.addIngress, ingressRouter.addIngressToMap, signal_isDone]
      exact decide_eq_false hfull
    · exact signal_state_reloadChannel_full
        (ingressRouter.mk (mapSet ir.ingressMap (ingressKey ingress) ingress) ir.reloadChannel
          ir.routemap) hfull
    · simp only [ingressRouter.removeIngress, ingressRouter.removeIngressFromMap, signal_isDone]
      exact decide_eq_false hfull
    · exact signal_state_reloadChannel_full
        (ingressRouter.mk (mapDelete ir.ingressMap (ingressKey ingress)) ir.reloadChannel
          ir.routemap) hfull
    · intro hdiff
      simp only [ingressRouter.updateIngress, hdiff, Bool.false_eq_true, if_false,
        ingressRouter.addIngressToMap, signal_isDone]
      exact decide_eq_false hfull
  · intro hsame
    simp [ingressRouter.updateIngress, hsame]

theorem handlers_return_iff_room_witness :
    routerWith1.reloadChannel < reloadChannelCap ∧
    (routerWith1.addIngress (Obj.ingress ingress2)).isDone = true ∧
    ¬ fullRouter.reloadChannel < reloadChannelCap ∧
    (fullRouter.addIngress (Obj.ingress ingress2)).isDone = false :=
  ⟨by decide,
    ((handlers_return_iff_room routerWith1 ingress2 ingress1).1 (by decide)).1,
    by decide,
    ((handlers_return_iff_room fullRouter ingress2 ingress1).2.1 (by decide)).1⟩

/-! ## Order independence and equivalent updates -/

/-- C18, order independence when routes are unambiguous. For a snapshot in which no two
path entries share both hostname and path string, `match` gives the same result on the
tables built from any two visiting orders of the snapshot with any two behaviours of
`sort.Slice` on ties; and any two reorderings of a bucket that are both non-increasing in
path length give the same first match. -/
theorem match_order_independent (sortSlice1 sortSlice2 : List routeMapEntry → List routeMapEntry)
    (hs1 : SortSliceSpec sortSlice1) (hs2 : SortSliceSpec sortSlice2)
    (order1 order2 : List Ingress) (hperm : order1.Perm order2) (hun : Unambiguous order1)
    (h p : String) :
    (buildRouteMap sortSlice1 order1).match_ h p = (buildRouteMap sortSlice2 order2).match_ h p ∧
    (∀ l1 l2 : List routeMapEntry,
      l1.Perm ((buildRouteMap sortSlice1 order1).hostMap h) →
      l2.Perm ((buildRouteMap sortSlice1 order1).hostMap h) →
      l1.Pairwise (fun a b => b.path.Path.length ≤ a.path.Path.length) →
      l2.Pairwise (fun a b => b.path.Path.length ≤ a.path.Path.length) →
      matchEntry l1 p = matchEntry l2 p) := by
  have hconv : ∀ l : List routeMapEntry,
      l.Pairwise (fun a b => b.path.Path.length ≤ a.path.Path.length) →
      l.Pairwise (fun a b => ¬ pathLess b.path a.path) := by
    intro l hl
    refine hl.imp ?_
    intro a b hab
    unfold pathLess
    omega
  constructor
  · have heq : matchEntry ((buildRouteMap sortSlice1 order1).hostMap h) p =
        matchEntry ((buildRouteMap sortSlice2 order2).hostMap h) p := by
      rw [hostMap_buildRouteMap, hostMap_buildRouteMap]
      exact matchEntry_sorted_perm h p order1 hun _ _ (hs1 _).1
        ((hs2 _).1.trans (declaredEntries_perm h _ _ hperm.symm)) (hs1 _).2 (hs2 _).2
    simp only [routeMap.match_, heq]
  · intro l1 l2 hp1 hp2 hsort1 hsort2
    rw [hostMap_buildRouteMap] at hp1 hp2
    exact matchEntry_sorted_perm h p order1 hun l1 l2 (hp1.trans (hs1 _).1)
      (hp2.trans (hs1 _).1) (hconv l1 hsort1) (hconv l2 hsort2)

theorem unambiguous_ingress2_ingress3 : Unambiguous [ingress2, ingress3] := by
  have key : ∀ (i : Ingress) (host : String) (path : HTTPIngressPath),
      i.Spec.Rules = [{ Host := host, HTTP := some { Paths := [path] } }] →
      ∀ h q, Declares i h q → h = host ∧ q = path := by
    intro i host path hi h q hd
    obtain ⟨rule, hr, hh, http, hhttp, hq⟩ := hd
    rw [hi, List.mem_singleton] at hr
    subst hr
    simp only [Option.some.injEq] at hhttp
    subst hhttp
    rw [List.mem_singleton] at hq
    exact ⟨hh.symm, hq⟩
  intro h i1 hi1 i2 hi2 p1 p2 hd1 hd2 _
  simp only [List.mem_cons, List.mem_singleton, List.not_mem_nil, or_false] at hi1 hi2
  rcases hi1 with rfl | rfl <;> rcases hi2 with rfl | rfl
  · obtain ⟨_, e1⟩ := key _ _ _ rfl h p1 hd1
    obtain ⟨_, e2⟩ := key _ _ _ rfl h p2 hd2
    exact ⟨rfl, e1.trans e2.symm⟩
  · obtain ⟨e1, _⟩ := key _ _ _ rfl h p1 hd1
    obtain ⟨e2, _⟩ := key _ _ _ rfl h p2 hd2
    rw [e1] at e2
    exact absurd e2 (by decide)
  · obtain ⟨e1, _⟩ := key _ _ _ rfl h p1 hd1
    obtain ⟨e2, _⟩ := key _ _ _ rfl h p2 hd2
    rw [e1] at e2
    exact absurd e2 (by decide)
  · obtain ⟨_, e1⟩ := key _ _ _ rfl h p1 hd1
    obtain ⟨_, e2⟩ := key _ _ _ rfl h p2 hd2
    exact ⟨rfl, e1.trans e2.symm⟩

theorem match_order_independent_witness :
    SortSliceSpec sortSlice ∧ [ingress2, ingress3].Perm [ingress3, ingress2] ∧
    Unambiguous [ingress2, ingress3] ∧
    (buildRouteMap sortSlice [ingress2, ingress3]).match_ "foo.com" "/path1" =
      (buildRouteMap sortSlice [ingress3, ingress2]).match_ "foo.com" "/path1" :=
  ⟨sortSlice_spec, by decide, unambiguous_ingress2_ingress3,
    (match_order_independent sortSlice sortSlice sortSlice_spec sortSlice_spec
      [ingress2, ingress3] [ingress3, ingress2] (by decide) unambiguous_ingress2_ingress3
      "foo.com" "/path1").1⟩

/-- C19, suppressing an equivalent update never changes routing. For two rules `a` and
`b` with the same namespace and name and `areIngressesTheSame a b`, and any snapshot, the
table built from the snapshot and the table built from the snapshot with `a` replaced by
`b`, visited in the same order, give the same `match` result for every hostname and
path. -/
theorem equivalent_update_same_match (sortSlice : List routeMapEntry → List routeMapEntry)
    (hless : SortSliceByLess sortSlice) (a b : Ingress) (hns : a.Namespace = b.Namespace)
    (hname : a.Name = b.Name) (hsame : areIngressesTheSame a b = true) (order : List Ingress)
    (h p : String) :
    (buildRouteMap sortSlice (replaceIngress a b order)).match_ h p =
      (buildRouteMap sortSlice order).match_ h p := by
  have hbucket : matchEntry ((buildRouteMap sortSlice (replaceIngress a b order)).hostMap h) p =
      (matchEntry ((buildRouteMap sortSlice order).hostMap h) p).map (replaceEntry a b) := by
    rw [hostMap_buildRouteMap, hostMap_buildRouteMap, declaredEntries_replaceIngress h a b order
      hsame, hless (replaceEntry a b) _ (fun x => by rw [replaceEntry_path]),
      matchEntry_map_replaceEntry]
  simp only [routeMap.match_, hbucket]
  cases matchEntry ((buildRouteMap sortSlice order).hostMap h) p with
  | none => rfl
  | some e =>
    simp only [Option.map_some']
    by_cases he : e.ingress = a
    · simp only [replaceEntry, he, if_true, entryAddr, hns, hname]
    · simp only [replaceEntry, he, if_false]

theorem equivalent_update_same_match_witness :
    SortSliceByLess sortSlice ∧ ingressPlainA.Namespace = ingressPlainB.Namespace ∧
    ingressPlainA.Name = ingressPlainB.Name ∧
    areIngressesTheSame ingressPlainA ingressPlainB = true ∧
    (buildRouteMap sortSlice
      (replaceIngress ingressPlainA ingressPlainB [ingress1, ingressPlainA])).match_
        "foo.com" "/path1" =
      (buildRouteMap sortSlice [ingress1, ingressPlainA]).match_ "foo.com" "/path1" :=
  ⟨sortSlice_byLess, rfl, rfl, by decide,
    equivalent_update_same_match sortSlice sortSlice_byLess ingressPlainA ingressPlainB rfl rfl
      (by decide) [ingress1, ingressPlainA] "foo.com" "/path1"⟩

end ingressutil
